import Mathlib

/-!
Verification development for the pom dependency-graph engine
(`src/deps_graph.py` and its helpers).

The shallow embedding below translates the graph data model and the
query functions of `deps_graph.py` into executable Lean definitions.
Python sets are modelled as duplicate-free lists, Python dicts as
association lists, and the external `networkx` library is modelled from
its documented contract (a `DiGraph` is a simple directed graph whose
edge endpoints are always nodes; `descendants`/`ancestors` are the
reachability sets; `shortest_path` returns a shortest directed path).
Python string comparison is code-point lexicographic, which is exactly
the order computed by `charListLe` below.
-/

namespace ManipuPom

/-- Code-point lexicographic comparison of character lists, matching the
comparison Python uses on strings. -/
def charListLe : List Char → List Char → Bool
  | [], _ => true
  | _ :: _, [] => false
  | a :: as, b :: bs => if a < b then true else if b < a then false else charListLe as bs

/-- Lexicographic (code-point) order on strings, as used by Python
`sorted` and `min`. -/
def strLe (a b : String) : Bool := charListLe a.data b.data

theorem charListLe_refl (l : List Char) : charListLe l l = true := by
  induction l with
  | nil => rfl
  | cons a as ih => simp [charListLe, ih]

theorem strLe_refl (a : String) : strLe a a = true := charListLe_refl a.data

theorem charListLe_total (l m : List Char) :
    charListLe l m = true ∨ charListLe m l = true := by
  induction l generalizing m with
  | nil => exact Or.inl rfl
  | cons a as ih =>
    cases m with
    | nil => exact Or.inr rfl
    | cons b bs =>
      rcases lt_trichotomy a b with h | h | h
      · exact Or.inl (by simp [charListLe, h])
      · subst h
        rcases ih bs with h2 | h2
        · exact Or.inl (by simp [charListLe, h2])
        · exact Or.inr (by simp [charListLe, h2])
      · exact Or.inr (by simp [charListLe, h])

theorem strLe_total (a b : String) : strLe a b = true ∨ strLe b a = true :=
  charListLe_total a.data b.data

theorem charListLe_trans {l m n : List Char} (h1 : charListLe l m = true)
    (h2 : charListLe m n = true) : charListLe l n = true := by
  induction l generalizing m n with
  | nil => rfl
  | cons a as ih =>
    cases m with
    | nil => simp [charListLe] at h1
    | cons b bs =>
      cases n with
      | nil => simp [charListLe] at h2
      | cons c cs =>
        rcases lt_trichotomy a b with hab | hab | hab
        · rcases lt_trichotomy b c with hbc | hbc | hbc
          · simp [charListLe, lt_trans hab hbc]
          · subst hbc; simp [charListLe, hab]
          · simp [charListLe, hbc, asymm hbc] at h2
        · subst hab
          rcases lt_trichotomy a c with hac | hac | hac
          · simp [charListLe, hac]
          · subst hac
            simp [charListLe, lt_irrefl] at h1 h2 ⊢
            exact ih h1 h2
          · simp [charListLe, hac, asymm hac] at h2
        · simp [charListLe, hab, asymm hab] at h1

theorem strLe_trans {a b c : String} (h1 : strLe a b = true)
    (h2 : strLe b c = true) : strLe a c = true :=
  charListLe_trans h1 h2

theorem charListLe_antisymm {l m : List Char} (h1 : charListLe l m = true)
    (h2 : charListLe m l = true) : l = m := by
  induction l generalizing m with
  | nil =>
    cases m with
    | nil => rfl
    | cons b bs => simp [charListLe] at h2
  | cons a as ih =>
    cases m with
    | nil => simp [charListLe] at h1
    | cons b bs =>
      rcases lt_trichotomy a b with hab | hab | hab
      · simp [charListLe, hab, asymm hab] at h2
      · subst hab
        simp [charListLe, lt_irrefl] at h1 h2
        exact congrArg (a :: ·) (ih h1 h2)
      · simp [charListLe, hab, asymm hab] at h1

theorem strLe_antisymm {a b : String} (h1 : strLe a b = true)
    (h2 : strLe b a = true) : a = b := by
  cases a with
  | mk da =>
    cases b with
    | mk db => exact congrArg String.mk (charListLe_antisymm h1 h2)

theorem strLe_of_not_strLe {a b : String} (h : ¬ strLe a b = true) :
    strLe b a = true := by
  rcases strLe_total a b with h1 | h1
  · exact absurd h1 h
  · exact h1

/-- Python `min` on two strings. -/
def strMin (a b : String) : String := if strLe a b then a else b

/-- Python `min` over a list of strings (`None` for the empty list). -/
def listMin : List String → Option String
  | [] => none
  | x :: xs => some (xs.foldl strMin x)

theorem foldl_strMin_mem (xs : List String) (x : String) :
    xs.foldl strMin x = x ∨ xs.foldl strMin x ∈ xs := by
  induction xs generalizing x with
  | nil => exact Or.inl rfl
  | cons y ys ih =>
    simp only [List.foldl_cons]
    rcases ih (strMin x y) with h | h
    · rw [h]
      unfold strMin
      by_cases hle : strLe x y = true
      · simp [hle]
      · simp [hle]
    · exact Or.inr (List.mem_cons_of_mem _ h)

theorem foldl_strMin_le (xs : List String) (x : String) :
    strLe (xs.foldl strMin x) x = true ∧
    ∀ y ∈ xs, strLe (xs.foldl strMin x) y = true := by
  induction xs generalizing x with
  | nil => exact ⟨strLe_refl x, by simp⟩
  | cons y ys ih =>
    simp only [List.foldl_cons]
    obtain ⟨h1, h2⟩ := ih (strMin x y)
    have hminx : strLe (strMin x y) x = true := by
      unfold strMin
      by_cases hle : strLe x y = true
      · simp [hle, strLe_refl]
      · simp [hle, strLe_of_not_strLe hle]
    have hminy : strLe (strMin x y) y = true := by
      unfold strMin
      by_cases hle : strLe x y = true
      · simp [hle]
      · simp [hle, strLe_refl]
    refine ⟨strLe_trans h1 hminx, ?_⟩
    intro z hz
    rcases List.mem_cons.mp hz with hz | hz
    · subst hz; exact strLe_trans h1 hminy
    · exact h2 z hz

theorem listMin_spec {l : List String} {c : String} (h : listMin l = some c) :
    c ∈ l ∧ ∀ x ∈ l, strLe c x = true := by
  cases l with
  | nil => simp [listMin] at h
  | cons x xs =>
    simp only [listMin, Option.some.injEq] at h
    subst h
    obtain ⟨h1, h2⟩ := foldl_strMin_le xs x
    constructor
    · rcases foldl_strMin_mem xs x with h | h
      · rw [h]; exact List.mem_cons_self x xs
      · exact List.mem_cons_of_mem _ h
    · intro z hz
      rcases List.mem_cons.mp hz with hz | hz
      · subst hz; exact h1
      · exact h2 z hz

theorem listMin_isSome {l : List String} (h : l ≠ []) : (listMin l).isSome := by
  cases l with
  | nil => exact absurd rfl h
  | cons x xs => simp [listMin]

/-- Insert into a sorted list, keeping it sorted (helper of `sortStrs`). -/
def insertSorted (x : String) : List String → List String
  | [] => [x]
  | y :: ys => if strLe x y then x :: y :: ys else y :: insertSorted x ys

/-- Python `sorted` on strings: code-point lexicographic insertion sort. -/
def sortStrs (l : List String) : List String := l.foldr insertSorted []

theorem insertSorted_perm (x : String) (l : List String) :
    (insertSorted x l).Perm (x :: l) := by
  induction l with
  | nil => rfl
  | cons y ys ih =>
    unfold insertSorted
    by_cases h : strLe x y = true
    · simp [h]
    · simp only [h]
      simp only [Bool.false_eq_true, if_false]
      exact List.Perm.trans (List.Perm.cons y ih) (List.Perm.swap x y ys)

theorem sortStrs_perm (l : List String) : (sortStrs l).Perm l := by
  induction l with
  | nil => rfl
  | cons x xs ih =>
    exact List.Perm.trans (insertSorted_perm x (sortStrs xs)) (List.Perm.cons x ih)

theorem mem_sortStrs {a : String} {l : List String} : a ∈ sortStrs l ↔ a ∈ l :=
  (sortStrs_perm l).mem_iff

theorem sortStrs_nodup {l : List String} (h : l.Nodup) : (sortStrs l).Nodup :=
  (sortStrs_perm l).nodup_iff.mpr h

theorem insertSorted_sorted (x : String) (l : List String)
    (h : l.Pairwise (fun a b => strLe a b = true)) :
    (insertSorted x l).Pairwise (fun a b => strLe a b = true) := by
  induction l with
  | nil => simp [insertSorted]
  | cons y ys ih =>
    unfold insertSorted
    by_cases hxy : strLe x y = true
    · simp only [hxy, if_true]
      refine List.Pairwise.cons ?_ h
      intro b hb
      rcases List.mem_cons.mp hb with hb | hb
      · subst hb; exact hxy
      · exact strLe_trans hxy ((List.pairwise_cons.mp h).1 b hb)
    · simp only [hxy]
      simp only [Bool.false_eq_true, if_false]
      obtain ⟨hy, hys⟩ := List.pairwise_cons.mp h
      refine List.Pairwise.cons ?_ (ih hys)
      intro b hb
      have : b = x ∨ b ∈ ys := by
        have := (insertSorted_perm x ys).mem_iff.mp hb
        simpa using this
      rcases this with hb2 | hb2
      · subst hb2; exact strLe_of_not_strLe hxy
      · exact hy b hb2

theorem sortStrs_sorted (l : List String) :
    (sortStrs l).Pairwise (fun a b => strLe a b = true) := by
  induction l with
  | nil => simp [sortStrs]
  | cons x xs ih => exact insertSorted_sorted x (sortStrs xs) ih

/-- Association-list lookup (model of Python dict access). -/
def alookup {α : Type} : List (String × α) → String → Option α
  | [], _ => none
  | (k, v) :: rest, n => if k = n then some v else alookup rest n

theorem alookup_append_left {α : Type} {l1 : List (String × α)} {n : String} {v : α}
    (l2 : List (String × α)) (h : alookup l1 n = some v) :
    alookup (l1 ++ l2) n = some v := by
  induction l1 with
  | nil => simp [alookup] at h
  | cons p rest ih =>
    obtain ⟨k, w⟩ := p
    by_cases hk : k = n
    · simp [alookup, hk] at h ⊢; exact h
    · simp [alookup, hk] at h ⊢; exact ih h

theorem alookup_append_right {α : Type} {l1 : List (String × α)} {n : String}
    (l2 : List (String × α)) (h : alookup l1 n = none) :
    alookup (l1 ++ l2) n = alookup l2 n := by
  induction l1 with
  | nil => rfl
  | cons p rest ih =>
    obtain ⟨k, w⟩ := p
    by_cases hk : k = n
    · simp [alookup, hk] at h
    · simp [alookup, hk] at h ⊢; exact ih h

theorem alookup_eq_none_iff {α : Type} {l : List (String × α)} {n : String} :
    alookup l n = none ↔ n ∉ l.map Prod.fst := by
  induction l with
  | nil => simp [alookup]
  | cons p rest ih =>
    obtain ⟨k, w⟩ := p
    by_cases hk : k = n
    · subst hk; simp [alookup]
    · simp [alookup, hk, ih, Ne.symm hk]

theorem alookup_mem {α : Type} {l : List (String × α)} {n : String} {v : α}
    (h : alookup l n = some v) : (n, v) ∈ l := by
  induction l with
  | nil => simp [alookup] at h
  | cons p rest ih =>
    obtain ⟨k, w⟩ := p
    by_cases hk : k = n
    · subst hk
      simp [alookup] at h
      subst h
      exact List.mem_cons_self _ _
    · simp [alookup, hk] at h
      exact List.mem_cons_of_mem _ (ih h)

theorem alookup_isSome_iff {α : Type} {l : List (String × α)} {n : String} :
    (alookup l n).isSome = true ↔ n ∈ l.map Prod.fst := by
  constructor
  · intro h
    cases hl : alookup l n with
    | none => rw [hl] at h; simp at h
    | some v => exact List.mem_map.mpr ⟨(n, v), alookup_mem hl, rfl⟩
  · intro h
    cases hl : alookup l n with
    | none => exact absurd h (alookup_eq_none_iff.mp hl)
    | some v => simp

theorem alookup_map_const {α : Type} (v : α) (l : List String) (n : String) :
    alookup (l.map (fun x => (x, v))) n = if n ∈ l then some v else none := by
  induction l with
  | nil => simp [alookup]
  | cons x xs ih =>
    by_cases hx : x = n
    · subst hx; simp [alookup]
    · simp [alookup, hx, ih, Ne.symm hx]

/-- Model of a `networkx.DiGraph`: a node set and a directed edge set,
both represented as duplicate-free lists. -/
structure DiGraph where
  nodes : List String
  edges : List (String × String)

/-- Class invariant of `networkx.DiGraph`: node and edge sets hold no
duplicates and every edge endpoint is a node (`add_edge` inserts its
endpoints). -/
def DiGraph.WF (G : DiGraph) : Prop :=
  G.nodes.Nodup ∧ G.edges.Nodup ∧ ∀ e ∈ G.edges, e.1 ∈ G.nodes ∧ e.2 ∈ G.nodes

instance (G : DiGraph) : Decidable G.WF := by
  unfold DiGraph.WF
  infer_instance

/-- The edge relation of the graph. -/
def edgeRel (G : DiGraph) (a b : String) : Prop := (a, b) ∈ G.edges

instance (G : DiGraph) (a b : String) : Decidable (edgeRel G a b) := by
  unfold edgeRel
  infer_instance

/-- Model of `networkx` `G.successors(n)`: the out-neighbors of `n`. -/
def succList (G : DiGraph) (n : String) : List String :=
  (G.edges.filter (fun e => e.1 == n)).map Prod.snd

/-- Model of `networkx` `G.predecessors(n)`: the in-neighbors of `n`. -/
def predList (G : DiGraph) (n : String) : List String :=
  (G.edges.filter (fun e => e.2 == n)).map Prod.fst

/-- Model of `networkx` `G.reverse(copy=True)`: same nodes, every edge
direction inverted. -/
def DiGraph.reverse (G : DiGraph) : DiGraph :=
  ⟨G.nodes, G.edges.map Prod.swap⟩

theorem mem_succList {G : DiGraph} {n x : String} :
    x ∈ succList G n ↔ (n, x) ∈ G.edges := by
  unfold succList
  constructor
  · intro h
    obtain ⟨e, he, hx⟩ := List.mem_map.mp h
    obtain ⟨he1, he2⟩ := List.mem_filter.mp he
    have : e.1 = n := by simpa using he2
    have : e = (n, x) := by
      obtain ⟨a, b⟩ := e
      simp_all
    rw [← this]; exact he1
  · intro h
    exact List.mem_map.mpr ⟨(n, x), List.mem_filter.mpr ⟨h, by simp⟩, rfl⟩

theorem mem_predList {G : DiGraph} {n x : String} :
    x ∈ predList G n ↔ (x, n) ∈ G.edges := by
  unfold predList
  constructor
  · intro h
    obtain ⟨e, he, hx⟩ := List.mem_map.mp h
    obtain ⟨he1, he2⟩ := List.mem_filter.mp he
    have : e.2 = n := by simpa using he2
    have : e = (x, n) := by
      obtain ⟨a, b⟩ := e
      simp_all
    rw [← this]; exact he1
  · intro h
    exact List.mem_map.mpr ⟨(x, n), List.mem_filter.mpr ⟨h, by simp⟩, rfl⟩

theorem succList_nodup {G : DiGraph} (hwf : G.WF) (n : String) :
    (succList G n).Nodup := by
  unfold succList
  refine List.Nodup.map_on ?_ (List.Nodup.filter _ hwf.2.1)
  intro x hx y hy hxy
  obtain ⟨hx1, hx2⟩ := List.mem_filter.mp hx
  obtain ⟨hy1, hy2⟩ := List.mem_filter.mp hy
  obtain ⟨a, b⟩ := x
  obtain ⟨c, d⟩ := y
  simp_all

theorem succList_reverse_aux (n : String) (l : List (String × String)) :
    ((l.map Prod.swap).filter (fun e => e.1 == n)).map Prod.snd =
      (l.filter (fun e => e.2 == n)).map Prod.fst := by
  induction l with
  | nil => rfl
  | cons e rest ih =>
    obtain ⟨a, b⟩ := e
    by_cases hb : b = n
    · subst hb
      simp [Prod.swap, List.filter_cons, ih]
    · simp [Prod.swap, List.filter_cons, hb, ih]

theorem succList_reverse (G : DiGraph) (n : String) :
    succList G.reverse n = predList G n :=
  succList_reverse_aux n G.edges

theorem reverse_nodes (G : DiGraph) : G.reverse.nodes = G.nodes := rfl

/-- Insert every element of `l` into the duplicate-free list `acc`. -/
def foldInsert (acc : List String) (l : List String) : List String :=
  l.foldl (fun a x => a.insert x) acc

theorem mem_foldInsert {acc l : List String} {x : String} :
    x ∈ foldInsert acc l ↔ x ∈ acc ∨ x ∈ l := by
  induction l generalizing acc with
  | nil => simp [foldInsert]
  | cons y ys ih =>
    unfold foldInsert at ih ⊢
    simp only [List.foldl_cons]
    rw [ih]
    simp [List.mem_insert_iff]
    tauto

theorem nodup_foldInsert {acc l : List String} (h : acc.Nodup) :
    (foldInsert acc l).Nodup := by
  induction l generalizing acc with
  | nil => exact h
  | cons y ys ih =>
    unfold foldInsert at ih ⊢
    simp only [List.foldl_cons]
    exact ih (List.Nodup.insert h)

theorem length_foldInsert_le {acc l : List String} :
    acc.length ≤ (foldInsert acc l).length := by
  induction l generalizing acc with
  | nil => exact Nat.le_refl _
  | cons y ys ih =>
    unfold foldInsert at ih ⊢
    simp only [List.foldl_cons]
    refine Nat.le_trans ?_ ih
    unfold List.insert
    by_cases h : y ∈ acc
    · simp [h]
    · simp [h]

theorem foldInsert_eq_or_lt (acc l : List String) :
    foldInsert acc l = acc ∨ acc.length < (foldInsert acc l).length := by
  induction l generalizing acc with
  | nil => exact Or.inl rfl
  | cons y ys ih =>
    unfold foldInsert at ih ⊢
    simp only [List.foldl_cons]
    by_cases h : y ∈ acc
    · have : acc.insert y = acc := by simp [List.insert, h]
      rw [this]
      exact ih acc
    · right
      have h1 : acc.insert y = y :: acc := by simp [List.insert, h]
      have h2 : (y :: acc).length ≤ (List.foldl (fun a x => a.insert x) (y :: acc) ys).length :=
        length_foldInsert_le
      rw [h1]
      exact Nat.lt_of_lt_of_le (Nat.lt_succ_self _) h2

/-- One closure step over an adjacency function: add every neighbor of
every member of `s`. -/
def stepAdj (adj : String → List String) (s : List String) : List String :=
  s.foldl (fun acc n => foldInsert acc (adj n)) s

theorem stepAdj_aux_mem (adj : String → List String) (l acc : List String) (x : String) :
    x ∈ l.foldl (fun acc n => foldInsert acc (adj n)) acc ↔
      x ∈ acc ∨ ∃ u ∈ l, x ∈ adj u := by
  induction l generalizing acc with
  | nil => simp
  | cons y ys ih =>
    simp only [List.foldl_cons]
    rw [ih, mem_foldInsert]
    constructor
    · rintro ((h | h) | ⟨u, hu, hx⟩)
      · exact Or.inl h
      · exact Or.inr ⟨y, List.mem_cons_self _ _, h⟩
      · exact Or.inr ⟨u, List.mem_cons_of_mem _ hu, hx⟩
    · rintro (h | ⟨u, hu, hx⟩)
      · exact Or.inl (Or.inl h)
      · rcases List.mem_cons.mp hu with hu | hu
        · subst hu; exact Or.inl (Or.inr hx)
        · exact Or.inr ⟨u, hu, hx⟩

theorem mem_stepAdj {adj : String → List String} {s : List String} {x : String} :
    x ∈ stepAdj adj s ↔ x ∈ s ∨ ∃ u ∈ s, x ∈ adj u :=
  stepAdj_aux_mem adj s s x

theorem subset_stepAdj {adj : String → List String} {s : List String} {x : String}
    (h : x ∈ s) : x ∈ stepAdj adj s :=
  mem_stepAdj.mpr (Or.inl h)

theorem stepAdj_aux_nodup (adj : String → List String) (l : List String)
    {acc : List String} (h : acc.Nodup) :
    (l.foldl (fun acc n => foldInsert acc (adj n)) acc).Nodup := by
  induction l generalizing acc with
  | nil => exact h
  | cons y ys ih =>
    simp only [List.foldl_cons]
    exact ih (nodup_foldInsert h)

theorem stepAdj_nodup {adj : String → List String} {s : List String} (h : s.Nodup) :
    (stepAdj adj s).Nodup :=
  stepAdj_aux_nodup adj s h

theorem stepAdj_aux_length (adj : String → List String) (l : List String)
    (acc : List String) :
    acc.length ≤ (l.foldl (fun acc n => foldInsert acc (adj n)) acc).length := by
  induction l generalizing acc with
  | nil => exact Nat.le_refl _
  | cons y ys ih =>
    simp only [List.foldl_cons]
    exact Nat.le_trans length_foldInsert_le (ih _)

theorem stepAdj_aux_eq_or_lt (adj : String → List String) (l : List String)
    (acc : List String) :
    l.foldl (fun acc n => foldInsert acc (adj n)) acc = acc ∨
      acc.length < (l.foldl (fun acc n => foldInsert acc (adj n)) acc).length := by
  induction l generalizing acc with
  | nil => exact Or.inl rfl
  | cons y ys ih =>
    simp only [List.foldl_cons]
    rcases foldInsert_eq_or_lt acc (adj y) with h | h
    · rw [h]; exact ih acc
    · right
      exact Nat.lt_of_lt_of_le h (stepAdj_aux_length adj ys _)

theorem stepAdj_eq_or_lt (adj : String → List String) (s : List String) :
    stepAdj adj s = s ∨ s.length < (stepAdj adj s).length :=
  stepAdj_aux_eq_or_lt adj s s

/-- Reachability closure from `m` over an adjacency function, iterated
enough times to reach the fixed point on any graph whose closure stays
inside a node set of size `bound`. -/
def reachAdj (adj : String → List String) (bound : Nat) (m : String) : List String :=
  (stepAdj adj)^[bound + 1] [m]

theorem iterate_subset_succ (adj : String → List String) (k : Nat) (s : List String)
    {x : String} (h : x ∈ (stepAdj adj)^[k] s) : x ∈ (stepAdj adj)^[k + 1] s := by
  rw [Function.iterate_succ_apply']
  exact subset_stepAdj h

theorem iterate_stable (adj : String → List String) (s : List String) (k : Nat) :
    (stepAdj adj)^[k + 1] s = (stepAdj adj)^[k] s ∨
      s.length + k ≤ ((stepAdj adj)^[k] s).length := by
  induction k with
  | zero => right; simp
  | succ k ih =>
    have e2 : ∀ j, (stepAdj adj)^[j + 1] s = stepAdj adj ((stepAdj adj)^[j] s) :=
      fun j => Function.iterate_succ_apply' _ _ _
    rcases ih with ih | ih
    · left
      rw [e2 (k + 1), ih, ← e2 k]
      exact ih
    · rcases stepAdj_eq_or_lt adj ((stepAdj adj)^[k] s) with h | h
      · left
        rw [e2 (k + 1), e2 k, h]
        exact h
      · right
        rw [e2 k]
        omega

theorem length_le_of_nodup_subset {l L : List String} (hl : l.Nodup) (hL : L.Nodup)
    (h : ∀ x ∈ l, x ∈ L) : l.length ≤ L.length := by
  classical
  have h1 : l.toFinset.card = l.length := List.toFinset_card_of_nodup hl
  have h2 : L.toFinset.card = L.length := List.toFinset_card_of_nodup hL
  have h3 : l.toFinset ⊆ L.toFinset :=
    fun y hy => List.mem_toFinset.mpr (h y (List.mem_toFinset.mp hy))
  have := Finset.card_le_card h3
  omega

theorem iterate_mem_nodes (adj : String → List String) (L : List String) (m : String)
    (hm : m ∈ L) (hadj : ∀ n, ∀ x ∈ adj n, x ∈ L) :
    ∀ k, ∀ x ∈ (stepAdj adj)^[k] [m], x ∈ L := by
  intro k
  induction k with
  | zero => intro x hx; simp at hx; subst hx; exact hm
  | succ k ih =>
    intro x hx
    rw [Function.iterate_succ_apply'] at hx
    rcases mem_stepAdj.mp hx with h | ⟨u, hu, h⟩
    · exact ih x h
    · exact hadj u x h

theorem iterate_nodup (adj : String → List String) (m : String) :
    ∀ k, ((stepAdj adj)^[k] [m]).Nodup := by
  intro k
  induction k with
  | zero => simp
  | succ k ih =>
    rw [Function.iterate_succ_apply']
    exact stepAdj_nodup ih

theorem stepAdj_reachAdj (adj : String → List String) (L : List String) (m : String)
    (hm : m ∈ L) (hL : L.Nodup) (hadj : ∀ n, ∀ x ∈ adj n, x ∈ L) :
    stepAdj adj (reachAdj adj L.length m) = reachAdj adj L.length m := by
  rcases iterate_stable adj [m] L.length with h | h
  · unfold reachAdj
    rw [h, ← Function.iterate_succ_apply' (stepAdj adj) L.length [m]]
    exact h
  · exfalso
    have hb := length_le_of_nodup_subset (iterate_nodup adj m L.length) hL
      (iterate_mem_nodes adj L m hm hadj L.length)
    simp at h
    omega

theorem mem_reachAdj_of_iterate (adj : String → List String) (m : String) :
    ∀ k, ∀ x ∈ (stepAdj adj)^[k] [m], Relation.ReflTransGen (fun a b => b ∈ adj a) m x := by
  intro k
  induction k with
  | zero => intro x hx; simp at hx; subst hx; exact Relation.ReflTransGen.refl
  | succ k ih =>
    intro x hx
    rw [Function.iterate_succ_apply'] at hx
    rcases mem_stepAdj.mp hx with h | ⟨u, hu, h⟩
    · exact ih x h
    · exact Relation.ReflTransGen.tail (ih u hu) h

theorem start_mem_iterate (adj : String → List String) (m : String) :
    ∀ k, m ∈ (stepAdj adj)^[k] [m] := by
  intro k
  induction k with
  | zero => simp
  | succ k ih => exact iterate_subset_succ adj k [m] ih

theorem mem_reachAdj (adj : String → List String) (L : List String) (m : String)
    (hm : m ∈ L) (hL : L.Nodup) (hadj : ∀ n, ∀ x ∈ adj n, x ∈ L) (x : String) :
    x ∈ reachAdj adj L.length m ↔ Relation.ReflTransGen (fun a b => b ∈ adj a) m x := by
  constructor
  · exact mem_reachAdj_of_iterate adj m (L.length + 1) x
  · intro h
    induction h with
    | refl => exact start_mem_iterate adj m (L.length + 1)
    | tail h1 h2 ih =>
      have : _ ∈ stepAdj adj (reachAdj adj L.length m) :=
        mem_stepAdj.mpr (Or.inr ⟨_, ih, h2⟩)
      rwa [stepAdj_reachAdj adj L m hm hL hadj] at this

/-- Model of `networkx.descendants(G, source)`: all nodes reachable from
`source` in `G`, not including `source` itself. -/
def nxDescendants (G : DiGraph) (m : String) : List String :=
  (reachAdj (succList G) G.nodes.length m).filter (fun x => x != m)

/-- Model of `networkx.ancestors(G, source)`: all nodes with a path to
`source` in `G`, not including `source` itself. -/
def nxAncestors (G : DiGraph) (m : String) : List String :=
  (reachAdj (predList G) G.nodes.length m).filter (fun x => x != m)

/-- Embedding of `deps_graph.get_transitive_dependencies`. -/
def get_transitive_dependencies (G : DiGraph) (module : String) : List String :=
  if module ∈ G.nodes then sortStrs (nxDescendants G module) else []

/-- Embedding of `deps_graph.get_transitive_dependents`. -/
def get_transitive_dependents (G : DiGraph) (module : String) : List String :=
  if module ∈ G.nodes then sortStrs (nxAncestors G module) else []

theorem succList_bound {G : DiGraph} (hwf : G.WF) :
    ∀ n, ∀ x ∈ succList G n, x ∈ G.nodes :=
  fun _ _ hx => (hwf.2.2 _ (mem_succList.mp hx)).2

theorem reachable_iff {G : DiGraph} (hwf : G.WF) {m : String} (hm : m ∈ G.nodes)
    (x : String) :
    x ∈ reachAdj (succList G) G.nodes.length m ↔
      Relation.ReflTransGen (edgeRel G) m x := by
  rw [mem_reachAdj (succList G) G.nodes m hm hwf.1 (succList_bound hwf) x]
  constructor
  · intro h
    exact Relation.ReflTransGen.mono (fun a b hb => mem_succList.mp hb) h
  · intro h
    exact Relation.ReflTransGen.mono (fun a b hb => mem_succList.mpr hb) h

theorem transGen_ne_iff_reflTransGen_ne {G : DiGraph} {m n : String} (hn : n ≠ m) :
    Relation.TransGen (edgeRel G) m n ↔ Relation.ReflTransGen (edgeRel G) m n := by
  constructor
  · exact Relation.TransGen.to_reflTransGen
  · intro h
    rcases Relation.reflTransGen_iff_eq_or_transGen.mp h with h | h
    · exact absurd h hn
    · exact h

theorem mem_get_transitive_dependencies {G : DiGraph} (hwf : G.WF) {m : String}
    (hm : m ∈ G.nodes) (n : String) :
    n ∈ get_transitive_dependencies G m ↔
      Relation.ReflTransGen (edgeRel G) m n ∧ n ≠ m := by
  unfold get_transitive_dependencies
  rw [if_pos hm, mem_sortStrs]
  unfold nxDescendants
  rw [List.mem_filter]
  rw [reachable_iff hwf hm n]
  simp

theorem transGen_head_edge {r : String → String → Prop} {m n : String}
    (h : Relation.TransGen r m n) : ∃ c, r m c := by
  induction h with
  | single h => exact ⟨_, h⟩
  | tail h1 h2 ih => exact ih

/-- Two-node dependency cycle (the spec scenario: A depends on B and B
depends on A). -/
def twoCycleGraph : DiGraph := ⟨["A", "B"], [("A", "B"), ("B", "A")]⟩

/-- C3: on every graph, cyclic ones included, `get_transitive_dependencies`
terminates (it is a total function) and returns the lexicographically
sorted list of exactly the nodes with a nonempty directed path from `m`,
excluding `m` itself; `m` is never a member of its own result. -/
theorem claim_C3 (G : DiGraph) (hwf : G.WF) (m : String) :
    (get_transitive_dependencies G m).Pairwise (fun a b => strLe a b = true) ∧
    (∀ n, n ∈ get_transitive_dependencies G m ↔
      (Relation.TransGen (edgeRel G) m n ∧ n ≠ m)) ∧
    m ∉ get_transitive_dependencies G m := by
  refine ⟨?_, ?_, ?_⟩
  · unfold get_transitive_dependencies
    by_cases hm : m ∈ G.nodes
    · rw [if_pos hm]; exact sortStrs_sorted _
    · rw [if_neg hm]; exact List.Pairwise.nil
  · intro n
    by_cases hm : m ∈ G.nodes
    · rw [mem_get_transitive_dependencies hwf hm n]
      constructor
      · rintro ⟨h1, h2⟩
        exact ⟨(transGen_ne_iff_reflTransGen_ne h2).mpr h1, h2⟩
      · rintro ⟨h1, h2⟩
        exact ⟨(transGen_ne_iff_reflTransGen_ne h2).mp h1, h2⟩
    · unfold get_transitive_dependencies
      rw [if_neg hm]
      simp only [List.not_mem_nil, false_iff]
      rintro ⟨ht, _⟩
      obtain ⟨c, hc⟩ := transGen_head_edge ht
      exact hm (hwf.2.2 _ hc).1
  · by_cases hm : m ∈ G.nodes
    · intro hmem
      exact ((mem_get_transitive_dependencies hwf hm m).mp hmem).2 rfl
    · unfold get_transitive_dependencies
      rw [if_neg hm]
      exact List.not_mem_nil m

theorem claim_C3_witness :
    DiGraph.WF twoCycleGraph ∧
    (("B") ∈ get_transitive_dependencies twoCycleGraph ("A") ↔
      (Relation.TransGen (edgeRel twoCycleGraph) ("A") ("B") ∧ ("B") ≠ ("A"))) ∧
    get_transitive_dependencies twoCycleGraph ("A") = ["B"] :=
  ⟨by decide, (claim_C3 twoCycleGraph (by decide) ("A")).2.1 ("B"), by decide⟩

/-- C6: the transitive dependents of `m` in `G` are exactly the transitive
dependencies of `m` in the edge-reversed graph, as identical sorted
lists, for every graph and module. -/
theorem claim_C6 (G : DiGraph) (m : String) :
    get_transitive_dependents G m = get_transitive_dependencies G.reverse m := by
  unfold get_transitive_dependents get_transitive_dependencies
  have hrev : succList G.reverse = predList G := funext (succList_reverse G)
  by_cases hm : m ∈ G.nodes
  · have hm2 : m ∈ G.reverse.nodes := hm
    rw [if_pos hm, if_pos hm2]
    unfold nxAncestors nxDescendants
    rw [hrev]
    rfl
  · have hm2 : m ∉ G.reverse.nodes := hm
    rw [if_neg hm, if_neg hm2]

/-- C9: querying the transitive dependencies or dependents of a module
that is not a node of the graph returns the empty list instead of
raising an error. -/
theorem claim_C9 (G : DiGraph) (m : String) (h : m ∉ G.nodes) :
    get_transitive_dependencies G m = [] ∧ get_transitive_dependents G m = [] := by
  unfold get_transitive_dependencies get_transitive_dependents
  rw [if_neg h, if_neg h]
  exact ⟨rfl, rfl⟩

theorem claim_C9_witness :
    ("Z") ∉ twoCycleGraph.nodes ∧
    get_transitive_dependencies twoCycleGraph ("Z") = [] ∧
    get_transitive_dependents twoCycleGraph ("Z") = [] :=
  ⟨by decide, claim_C9 twoCycleGraph ("Z") (by decide)⟩

/-- Python `sorted(G.successors(current))`. -/
def sortedSuccessors (G : DiGraph) (n : String) : List String :=
  sortStrs (succList G n)

theorem mem_sortedSuccessors {G : DiGraph} {n x : String} :
    x ∈ sortedSuccessors G n ↔ (n, x) ∈ G.edges := by
  unfold sortedSuccessors
  rw [mem_sortStrs, mem_succList]

theorem sortedSuccessors_nodup {G : DiGraph} (hwf : G.WF) (n : String) :
    (sortedSuccessors G n).Nodup :=
  sortStrs_nodup (succList_nodup hwf n)

/-- State of the BFS loop inside
`deps_graph._get_transitive_dependencies_tree_shortest`: the `distances`
dict, the `parents_by_dist` dict and the deque, in insertion order. -/
structure BfsState where
  distances : List (String × Nat)
  parents : List (String × List String)
  queue : List String

/-- Python `parents_by_dist[next_node].append(current)`. -/
def appendParent (l : List (String × List String)) (k : String) (v : String) :
    List (String × List String) :=
  l.map (fun p => if p.1 = k then (p.1, p.2 ++ [v]) else p)

/-- Body of the `for next_node in sorted(G.successors(current))` loop of
the BFS: discover `next` at distance `cd + 1`, or record `current` as an
extra shortest-path parent when `next` already sits at that distance. -/
def processSucc (current : String) (cd : Nat) (st : BfsState) (next : String) : BfsState :=
  match alookup st.distances next with
  | none =>
      { distances := st.distances ++ [(next, cd + 1)]
        parents := st.parents ++ [(next, [current])]
        queue := st.queue ++ [next] }
  | some dn =>
      if dn = cd + 1 then { st with parents := appendParent st.parents next current }
      else st

/-- One iteration of the BFS `while queue` loop body, after popping
`current` from the front of the deque. -/
def bfsStep (G : DiGraph) (st : BfsState) (current : String) : BfsState :=
  (sortedSuccessors G current).foldl
    (processSucc current ((alookup st.distances current).getD 0)) st

/-- The BFS `while queue` loop. `fuel` bounds the number of iterations;
each iteration pops one queued node and every node is queued at most
once, so on a well-formed graph the fuel passed by `bfsRun` never runs
out (proved below via the loop invariant). -/
def bfsLoop (G : DiGraph) : Nat → BfsState → BfsState
  | 0, st => st
  | fuel + 1, st =>
    match st.queue with
    | [] => st
    | current :: rest => bfsLoop G fuel (bfsStep G { st with queue := rest } current)

/-- The BFS phase of `_get_transitive_dependencies_tree_shortest`:
shortest distances and minimal-distance parent lists from `module`. -/
def bfsRun (G : DiGraph) (module : String) : BfsState :=
  bfsLoop G (G.nodes.length + 1)
    { distances := [(module, 0)], parents := [(module, [])], queue := [module] }

/-- Append `current` to the parent list of an entry when the flag is set
(helper for reasoning about `appendParent` compositions). -/
def bumpIf (b : Bool) (current : String) (p : String × List String) :
    String × List String :=
  match b with
  | true => (p.1, p.2 ++ [current])
  | false => p

/-- The flag under which the inner successor loop appends `current` to
the parent list of key `k`. -/
def oldFlag (S : List String) (D : List (String × Nat)) (cd : Nat) (k : String) : Bool :=
  S.contains k && (alookup D k == some (cd + 1))

theorem oldFlag_iff {S : List String} {D : List (String × Nat)} {cd : Nat} {k : String} :
    oldFlag S D cd k = true ↔ (k ∈ S ∧ alookup D k = some (cd + 1)) := by
  unfold oldFlag
  rw [Bool.and_eq_true, List.elem_iff, beq_iff_eq]

theorem bumpIf_false (current : String) (p : String × List String) :
    bumpIf false current p = p := rfl

theorem bumpIf_true (current : String) (p : String × List String) :
    bumpIf true current p = (p.1, p.2 ++ [current]) := rfl

theorem alookup_map_bump (cond : String → Bool) (current : String)
    (l : List (String × List String)) (x : String) :
    alookup (l.map (fun p => bumpIf (cond p.1) current p)) x =
      if cond x then (alookup l x).map (fun t => t ++ [current]) else alookup l x := by
  induction l with
  | nil => cases hc : cond x <;> simp [alookup, hc]
  | cons p rest ih =>
    obtain ⟨k, v⟩ := p
    by_cases hk : k = x
    · subst hk
      cases hc : cond k <;>
        simp [alookup, hc, bumpIf_false, bumpIf_true]
    · cases hc : cond k <;> cases hcx : cond x <;>
        simp [alookup, hc, hcx, hk, ih, bumpIf_false, bumpIf_true]

theorem map_fst_map_bump (cond : String → Bool) (current : String)
    (l : List (String × List String)) :
    (l.map (fun p => bumpIf (cond p.1) current p)).map Prod.fst = l.map Prod.fst := by
  rw [List.map_map]
  refine List.map_congr_left ?_
  intro p _
  cases hc : cond p.1 <;> simp [bumpIf_false, bumpIf_true, hc]

theorem contains_eq_false_of_not_mem {S : List String} {k : String} (h : k ∉ S) :
    S.contains k = false := by
  rw [← Bool.not_eq_true]
  intro hc
  exact h (List.elem_iff.mp hc)

theorem alookup_append_singleton_ne {α : Type} {D : List (String × α)} {y k : String}
    (hk : k ≠ y) (v : α) : alookup (D ++ [(y, v)]) k = alookup D k := by
  cases hv : alookup D k with
  | none =>
    rw [alookup_append_right _ hv]
    simp [alookup, Ne.symm hk]
  | some d => rw [alookup_append_left _ hv]

theorem contains_cons_ne {S : List String} {y k : String} (hk : k ≠ y) :
    (y :: S).contains k = S.contains k := by
  cases hSk : S.contains k with
  | true => exact List.elem_iff.mpr (List.mem_cons_of_mem _ (List.elem_iff.mp hSk))
  | false =>
    apply contains_eq_false_of_not_mem
    intro hmem
    rcases List.mem_cons.mp hmem with h | h
    · exact hk h
    · have h2 : S.contains k = true := List.elem_iff.mpr h
      rw [h2] at hSk
      exact Bool.noConfusion hSk

theorem oldFlag_cons_none {S : List String} {D : List (String × Nat)} {cd : Nat}
    {y : String} (hyS : y ∉ S) (hlk : alookup D y = none) (k : String) :
    oldFlag S (D ++ [(y, cd + 1)]) cd k = oldFlag (y :: S) D cd k := by
  by_cases hk : k = y
  · subst hk
    unfold oldFlag
    rw [contains_eq_false_of_not_mem hyS, hlk]
    simp
  · unfold oldFlag
    rw [alookup_append_singleton_ne hk, contains_cons_ne hk]

theorem oldFlag_cons_stale {S : List String} {D : List (String × Nat)} {cd dn : Nat}
    {y : String} (hyS : y ∉ S) (hlk : alookup D y = some dn) (hdn : dn ≠ cd + 1)
    (k : String) : oldFlag S D cd k = oldFlag (y :: S) D cd k := by
  by_cases hk : k = y
  · subst hk
    unfold oldFlag
    rw [contains_eq_false_of_not_mem hyS, hlk]
    simp [hdn]
  · unfold oldFlag
    rw [contains_cons_ne hk]

/-- Closed form of the inner successor loop: processing the duplicate-free
successor list `S` appends the newly discovered nodes (at distance
`cd + 1`) to the distance dict and the queue, and appends `current` to
the parent list of every already-known member of `S` sitting at distance
`cd + 1`. -/
theorem fold_closed_form (current : String) (cd : Nat) (S : List String)
    (hS : S.Nodup) (st : BfsState) :
    S.foldl (processSucc current cd) st =
      { distances := st.distances ++
          (S.filter (fun v => (alookup st.distances v).isNone)).map (fun v => (v, cd + 1)),
        parents := (st.parents.map
            (fun p => bumpIf (oldFlag S st.distances cd p.1) current p))
          ++ (S.filter (fun v => (alookup st.distances v).isNone)).map
              (fun v => (v, [current])),
        queue := st.queue ++ S.filter (fun v => (alookup st.distances v).isNone) } := by
  induction S generalizing st with
  | nil =>
    simp only [List.foldl_nil, List.filter_nil, List.map_nil, List.append_nil]
    have hmap : st.parents.map
        (fun p => bumpIf (oldFlag [] st.distances cd p.1) current p) = st.parents := by
      have : ∀ p ∈ st.parents,
          bumpIf (oldFlag [] st.distances cd p.1) current p = id p := by
        intro p _
        have : oldFlag [] st.distances cd p.1 = false := by
          unfold oldFlag
          simp [List.contains]
        rw [this, bumpIf_false, id]
      rw [List.map_congr_left this, List.map_id]
    rw [hmap]
  | cons y S ih =>
    obtain ⟨hy, hS2⟩ := List.pairwise_cons.mp hS
    have hyS : y ∉ S := fun hmem => hy y hmem rfl
    simp only [List.foldl_cons]
    cases hlk : alookup st.distances y with
    | none =>
      have hps : processSucc current cd st y =
          { distances := st.distances ++ [(y, cd + 1)]
            parents := st.parents ++ [(y, [current])]
            queue := st.queue ++ [y] } := by
        unfold processSucc
        rw [hlk]
      rw [hps, ih hS2]
      dsimp only
      have hlk2 : ∀ v ∈ S, alookup (st.distances ++ [(y, cd + 1)]) v = alookup st.distances v := by
        intro v hv
        refine alookup_append_singleton_ne ?_ _
        intro h
        rw [h] at hv
        exact hyS hv
      have hfilter : S.filter (fun v => (alookup (st.distances ++ [(y, cd + 1)]) v).isNone) =
          S.filter (fun v => (alookup st.distances v).isNone) := by
        refine List.filter_congr ?_
        intro v hv
        rw [hlk2 v hv]
      have hfilter2 : (y :: S).filter (fun v => (alookup st.distances v).isNone) =
          y :: S.filter (fun v => (alookup st.distances v).isNone) :=
        List.filter_cons_of_pos (by simp [hlk])
      have hflag : ∀ p ∈ st.parents ++ [(y, [current])],
          bumpIf (oldFlag S (st.distances ++ [(y, cd + 1)]) cd p.1) current p =
          bumpIf (oldFlag (y :: S) st.distances cd p.1) current p := by
        intro p _
        rw [oldFlag_cons_none hyS hlk]
      have hyflag : oldFlag (y :: S) st.distances cd y = false := by
        unfold oldFlag
        rw [hlk]
        simp
      rw [hfilter, hfilter2, List.map_congr_left hflag]
      congr 1
      · rw [List.map_cons, List.append_assoc, List.singleton_append]
      · rw [List.map_append, List.append_assoc]
        congr 1
        simp [hyflag, bumpIf_false]
      · rw [List.append_assoc, List.singleton_append]
    | some dn =>
      by_cases hdn : dn = cd + 1
      · subst hdn
        have hps : processSucc current cd st y =
            { st with parents := appendParent st.parents y current } := by
          unfold processSucc
          rw [hlk]
          simp
        rw [hps, ih hS2]
        dsimp only
        have hfilter2 : (y :: S).filter (fun v => (alookup st.distances v).isNone) =
            S.filter (fun v => (alookup st.distances v).isNone) :=
          List.filter_cons_of_neg (by simp [hlk])
      -- distances and queue are unchanged; parents compose
        congr 1
        · rw [hfilter2]
        · rw [hfilter2]
          congr 1
          unfold appendParent
          rw [List.map_map]
          refine List.map_congr_left ?_
          intro p _
          have hflag1 : oldFlag S st.distances cd y = false := by
            unfold oldFlag
            rw [contains_eq_false_of_not_mem hyS]
            simp
          have hflag2 : oldFlag (y :: S) st.distances cd y = true := by
            unfold oldFlag
            have hc : (y :: S).contains y = true := List.elem_iff.mpr (List.mem_cons_self y S)
            rw [hlk, hc]
            simp
          obtain ⟨k, v⟩ := p
          dsimp only [Function.comp_apply]
          by_cases hpy : k = y
          · subst hpy
            rw [if_pos rfl]
            dsimp only
            rw [hflag1, bumpIf_false, hflag2, bumpIf_true]
          · rw [if_neg hpy]
            have h3 : oldFlag (y :: S) st.distances cd k = oldFlag S st.distances cd k := by
              unfold oldFlag
              rw [contains_cons_ne hpy]
            rw [h3]
        · rw [hfilter2]
      · have hps : processSucc current cd st y = st := by
          unfold processSucc
          rw [hlk]
          simp [hdn]
        rw [hps, ih hS2]
        have hfilter2 : (y :: S).filter (fun v => (alookup st.distances v).isNone) =
            S.filter (fun v => (alookup st.distances v).isNone) :=
          List.filter_cons_of_neg (by simp [hlk])
        congr 1
        · rw [hfilter2]
        · rw [hfilter2]
          congr 1
          refine List.map_congr_left ?_
          intro p _
          rw [oldFlag_cons_stale hyS hlk hdn]
        · rw [hfilter2]

/-- Loop invariant of the BFS in
`_get_transitive_dependencies_tree_shortest`.  `distances` and
`parents_by_dist` share their key set; keys are discovered nodes,
reachable from `module`; the queue holds discovered, not yet processed
nodes; `parents_by_dist[n]` holds exactly the processed nodes `u` with
an edge to `n` sitting one BFS level above `n`; processed nodes have all
their successors discovered. -/
structure BfsInv (G : DiGraph) (module : String) (st : BfsState) : Prop where
  keys_eq : st.parents.map Prod.fst = st.distances.map Prod.fst
  keys_nodup : (st.distances.map Prod.fst).Nodup
  module_mem : alookup st.distances module = some 0
  queue_disc : ∀ q ∈ st.queue, (alookup st.distances q).isSome = true
  queue_nodup : st.queue.Nodup
  disc_nodes : ∀ n, (alookup st.distances n).isSome = true → n ∈ G.nodes
  dist_lt : ∀ n d, alookup st.distances n = some d → d < st.distances.length
  dist_zero : ∀ n d, alookup st.distances n = some d → (d = 0 ↔ n = module)
  disc_reach : ∀ n, (alookup st.distances n).isSome = true →
    Relation.ReflTransGen (edgeRel G) module n
  par_ne : ∀ n, (alookup st.distances n).isSome = true → n ≠ module →
    ∃ l, alookup st.parents n = some l ∧ l ≠ []
  par_spec : ∀ n l, alookup st.parents n = some l → ∀ u, (u ∈ l ↔
    ((alookup st.distances u).isSome = true ∧ u ∉ st.queue ∧ edgeRel G u n ∧
      ∃ du dn, alookup st.distances u = some du ∧ alookup st.distances n = some dn ∧
        du + 1 = dn))
  proc_closed : ∀ u, (alookup st.distances u).isSome = true → u ∉ st.queue →
    ∀ v, edgeRel G u v → (alookup st.distances v).isSome = true

theorem bfsStep_inv {G : DiGraph} (hwf : G.WF) {module : String} {st : BfsState}
    (hinv : BfsInv G module st) {current : String} {rest : List String}
    (hq : st.queue = current :: rest) :
    BfsInv G module (bfsStep G { st with queue := rest } current) ∧
    ∃ k, (bfsStep G { st with queue := rest } current).distances.length =
        st.distances.length + k ∧
      (bfsStep G { st with queue := rest } current).queue.length = rest.length + k := by
  obtain ⟨cdv, hcd⟩ : ∃ c, alookup st.distances current = some c :=
    Option.isSome_iff_exists.mp
      (hinv.queue_disc current (by rw [hq]; exact List.mem_cons_self _ _))
  have hrest_nodup : rest.Nodup := by
    have h := hinv.queue_nodup
    rw [hq] at h
    exact (List.nodup_cons.mp h).2
  have hcur_rest : current ∉ rest := by
    have h := hinv.queue_nodup
    rw [hq] at h
    exact (List.nodup_cons.mp h).1
  have hrest_sub : ∀ q ∈ rest, q ∈ st.queue := by
    intro q hqq
    rw [hq]
    exact List.mem_cons_of_mem _ hqq
  have hSnd : (sortedSuccessors G current).Nodup := sortedSuccessors_nodup hwf current
  have hbs : bfsStep G { st with queue := rest } current =
      (sortedSuccessors G current).foldl (processSucc current cdv)
        { st with queue := rest } := by
    unfold bfsStep
    dsimp only
    rw [hcd]
    rfl
  rw [hbs, fold_closed_form current cdv _ hSnd _]
  dsimp only
  -- abbreviations
  have hNmem : ∀ v ∈ (sortedSuccessors G current).filter
      (fun v => (alookup st.distances v).isNone),
      alookup st.distances v = none ∧ v ∈ sortedSuccessors G current := by
    intro v hv
    have h := List.mem_filter.mp hv
    exact ⟨Option.isNone_iff_eq_none.mp h.2, h.1⟩
  have hNofS : ∀ v ∈ sortedSuccessors G current,
      (alookup st.distances v).isSome = true ∨
        v ∈ (sortedSuccessors G current).filter
          (fun v => (alookup st.distances v).isNone) := by
    intro v hv
    cases h : alookup st.distances v with
    | some d => exact Or.inl rfl
    | none => exact Or.inr (List.mem_filter.mpr ⟨hv, by simp [h]⟩)
  have hNnodup : ((sortedSuccessors G current).filter
      (fun v => (alookup st.distances v).isNone)).Nodup := List.Nodup.filter _ hSnd
  have hSedge : ∀ v ∈ sortedSuccessors G current, edgeRel G current v :=
    fun v hv => mem_sortedSuccessors.mp hv
  -- distance lookups in the new state
  have hdist_old : ∀ x (d : Nat), alookup st.distances x = some d →
      alookup (st.distances ++ ((sortedSuccessors G current).filter
        (fun v => (alookup st.distances v).isNone)).map (fun v => (v, cdv + 1))) x =
        some d :=
    fun x d h => alookup_append_left _ h
  have hdist_new : ∀ x, alookup st.distances x = none →
      alookup (st.distances ++ ((sortedSuccessors G current).filter
        (fun v => (alookup st.distances v).isNone)).map (fun v => (v, cdv + 1))) x =
        if x ∈ (sortedSuccessors G current).filter
          (fun v => (alookup st.distances v).isNone) then some (cdv + 1) else none := by
    intro x h
    rw [alookup_append_right _ h, alookup_map_const]
  have hdist_isSome : ∀ x,
      (alookup (st.distances ++ ((sortedSuccessors G current).filter
        (fun v => (alookup st.distances v).isNone)).map (fun v => (v, cdv + 1))) x).isSome
        = true ↔
      ((alookup st.distances x).isSome = true ∨
        x ∈ (sortedSuccessors G current).filter
          (fun v => (alookup st.distances v).isNone)) := by
    intro x
    cases h : alookup st.distances x with
    | some d => simp [hdist_old x d h]
    | none =>
      rw [hdist_new x h]
      by_cases hx : x ∈ (sortedSuccessors G current).filter
          (fun v => (alookup st.distances v).isNone) <;> simp [hx, h]
  -- parent lookups in the new state
  have hpar_old : ∀ n l, alookup st.parents n = some l →
      alookup ((st.parents.map (fun p =>
          bumpIf (oldFlag (sortedSuccessors G current) st.distances cdv p.1) current p))
        ++ ((sortedSuccessors G current).filter
          (fun v => (alookup st.distances v).isNone)).map (fun v => (v, [current]))) n =
        if oldFlag (sortedSuccessors G current) st.distances cdv n then
          some (l ++ [current]) else some l := by
    intro n l h
    by_cases hf : oldFlag (sortedSuccessors G current) st.distances cdv n = true
    · rw [if_pos hf]
      refine alookup_append_left _ ?_
      rw [alookup_map_bump, if_pos hf, h]
      rfl
    · rw [if_neg hf]
      refine alookup_append_left _ ?_
      rw [alookup_map_bump, if_neg hf, h]
  have hpar_new : ∀ n, alookup st.parents n = none →
      alookup ((st.parents.map (fun p =>
          bumpIf (oldFlag (sortedSuccessors G current) st.distances cdv p.1) current p))
        ++ ((sortedSuccessors G current).filter
          (fun v => (alookup st.distances v).isNone)).map (fun v => (v, [current]))) n =
        if n ∈ (sortedSuccessors G current).filter
          (fun v => (alookup st.distances v).isNone) then some [current] else none := by
    intro n h
    have h1 : alookup (st.parents.map (fun p =>
        bumpIf (oldFlag (sortedSuccessors G current) st.distances cdv p.1) current p)) n =
        none := by
      rw [alookup_map_bump, h]
      by_cases hf : oldFlag (sortedSuccessors G current) st.distances cdv n = true
      · rw [if_pos hf]
        rfl
      · rw [if_neg hf]
    rw [alookup_append_right _ h1, alookup_map_const]
  have hpar_none_iff : ∀ n, alookup st.parents n = none ↔ alookup st.distances n = none := by
    intro n
    rw [alookup_eq_none_iff, alookup_eq_none_iff, hinv.keys_eq]
  have hpar_some : ∀ n, (alookup st.distances n).isSome = true →
      ∃ l, alookup st.parents n = some l := by
    intro n h
    cases hl : alookup st.parents n with
    | none =>
      rw [hpar_none_iff n] at hl
      rw [hl] at h
      exact Bool.noConfusion h
    | some l => exact ⟨l, rfl⟩
  have hmodN : module ∉ (sortedSuccessors G current).filter
      (fun v => (alookup st.distances v).isNone) := by
    intro hmem
    have h := (hNmem module hmem).1
    rw [hinv.module_mem] at h
    exact Option.noConfusion h
  have hcurN : current ∉ (sortedSuccessors G current).filter
      (fun v => (alookup st.distances v).isNone) := by
    intro hmem
    have h := (hNmem current hmem).1
    rw [hcd] at h
    exact Option.noConfusion h
  have hNnotrest : ∀ v ∈ (sortedSuccessors G current).filter
      (fun v => (alookup st.distances v).isNone), v ∉ rest := by
    intro v hv hvr
    have h1 := hinv.queue_disc v (hrest_sub v hvr)
    rw [(hNmem v hv).1] at h1
    exact Bool.noConfusion h1
  refine ⟨⟨?_, ?_, ?_, ?_, ?_, ?_, ?_, ?_, ?_, ?_, ?_, ?_⟩, ?_⟩
  · -- keys_eq
    rw [List.map_append, List.map_append, map_fst_map_bump, hinv.keys_eq]
    congr 1
    simp
  · -- keys_nodup
    rw [List.map_append]
    refine List.Nodup.append ?_ ?_ ?_
    · exact hinv.keys_nodup
    · rw [List.map_map]
      have e : List.map (Prod.fst ∘ fun v => (v, cdv + 1))
          ((sortedSuccessors G current).filter (fun v => (alookup st.distances v).isNone)) =
          List.map id ((sortedSuccessors G current).filter
            (fun v => (alookup st.distances v).isNone)) :=
        List.map_congr_left (fun a _ => rfl)
      rw [e, List.map_id]
      exact hNnodup
    · intro x hx1 hx2
      rw [List.map_map] at hx2
      have hx2b : x ∈ (sortedSuccessors G current).filter
          (fun v => (alookup st.distances v).isNone) := by
        obtain ⟨v, hv, hvx⟩ := List.mem_map.mp hx2
        simpa [← hvx] using hv
      have := (hNmem x hx2b).1
      rw [alookup_eq_none_iff] at this
      exact this hx1
  · -- module_mem
    exact hdist_old module 0 hinv.module_mem
  · -- queue_disc
    intro q hqm
    rcases List.mem_append.mp hqm with h | h
    · exact (hdist_isSome q).mpr (Or.inl (hinv.queue_disc q (hrest_sub q h)))
    · exact (hdist_isSome q).mpr (Or.inr h)
  · -- queue_nodup
    refine List.Nodup.append hrest_nodup hNnodup ?_
    intro x hx1 hx2
    exact hNnotrest x hx2 hx1
  · -- disc_nodes
    intro n hn
    rcases (hdist_isSome n).mp hn with h | h
    · exact hinv.disc_nodes n h
    · exact (hwf.2.2 _ (hSedge n (hNmem n h).2)).2
  · -- dist_lt
    dsimp only
    intro n d hd
    have hlen : (st.distances ++ ((sortedSuccessors G current).filter
        (fun v => (alookup st.distances v).isNone)).map (fun v => (v, cdv + 1))).length =
        st.distances.length + ((sortedSuccessors G current).filter
        (fun v => (alookup st.distances v).isNone)).length := by
      rw [List.length_append, List.length_map]
    cases h : alookup st.distances n with
    | some d0 =>
      have := hdist_old n d0 h
      rw [this] at hd
      have hdd : d = d0 := (Option.some.injEq _ _).mp hd.symm
      subst hdd
      have := hinv.dist_lt n d h
      omega
    | none =>
      have h2 := hdist_new n h
      rw [h2] at hd
      by_cases hn : n ∈ (sortedSuccessors G current).filter
          (fun v => (alookup st.distances v).isNone)
      · rw [if_pos hn] at hd
        have hdd : d = cdv + 1 := (Option.some.injEq _ _).mp hd.symm
        subst hdd
        have h3 := hinv.dist_lt current cdv hcd
        have h4 : 0 < ((sortedSuccessors G current).filter
            (fun v => (alookup st.distances v).isNone)).length :=
          List.length_pos.mpr (List.ne_nil_of_mem hn)
        omega
      · rw [if_neg hn] at hd
        exact Option.noConfusion hd
  · -- dist_zero
    intro n d hd
    cases h : alookup st.distances n with
    | some d0 =>
      have := hdist_old n d0 h
      rw [this] at hd
      have hdd : d = d0 := (Option.some.injEq _ _).mp hd.symm
      subst hdd
      exact hinv.dist_zero n d h
    | none =>
      have h2 := hdist_new n h
      rw [h2] at hd
      by_cases hn : n ∈ (sortedSuccessors G current).filter
          (fun v => (alookup st.distances v).isNone)
      · rw [if_pos hn] at hd
        have hdd : d = cdv + 1 := (Option.some.injEq _ _).mp hd.symm
        subst hdd
        constructor
        · intro h0
          exact absurd h0 (Nat.succ_ne_zero cdv)
        · intro hmod
          rw [hmod] at hn
          exact absurd hn hmodN
      · rw [if_neg hn] at hd
        exact Option.noConfusion hd
  · -- disc_reach
    intro n hn
    rcases (hdist_isSome n).mp hn with h | h
    · exact hinv.disc_reach n h
    · exact Relation.ReflTransGen.tail
        (hinv.disc_reach current (by rw [hcd]; rfl)) (hSedge n (hNmem n h).2)
  · -- par_ne
    intro n hn hnm
    cases hl : alookup st.parents n with
    | some l =>
      have hlD : (alookup st.distances n).isSome = true := by
        cases hD : alookup st.distances n with
        | none => rw [(hpar_none_iff n).mpr hD] at hl; exact Option.noConfusion hl
        | some d => rfl
      obtain ⟨l0, hl0, hl0ne⟩ := hinv.par_ne n hlD hnm
      rw [hl0] at hl
      have : l = l0 := (Option.some.injEq _ _).mp hl.symm
      subst this
      have h2 := hpar_old n l hl0
      by_cases hf : oldFlag (sortedSuccessors G current) st.distances cdv n = true
      · rw [if_pos hf] at h2
        exact ⟨l ++ [current], h2, by simp⟩
      · rw [if_neg hf] at h2
        exact ⟨l, h2, hl0ne⟩
    | none =>
      have hD : alookup st.distances n = none := (hpar_none_iff n).mp hl
      have hnN : n ∈ (sortedSuccessors G current).filter
          (fun v => (alookup st.distances v).isNone) := by
        rcases (hdist_isSome n).mp hn with h | h
        · rw [hD] at h; exact Bool.noConfusion h
        · exact h
      have h2 := hpar_new n hl
      rw [if_pos hnN] at h2
      exact ⟨[current], h2, by simp⟩
  · -- par_spec
    intro n l' hl' u
    have hqueue_mem : ∀ x, x ∈ rest ++ (sortedSuccessors G current).filter
        (fun v => (alookup st.distances v).isNone) ↔
        (x ∈ rest ∨ x ∈ (sortedSuccessors G current).filter
          (fun v => (alookup st.distances v).isNone)) := fun x => List.mem_append
    cases hl : alookup st.parents n with
    | some l =>
      -- n was already discovered
      have hDn : ∃ dn0, alookup st.distances n = some dn0 := by
        cases hD : alookup st.distances n with
        | none => rw [(hpar_none_iff n).mpr hD] at hl; exact Option.noConfusion hl
        | some d => exact ⟨d, rfl⟩
      obtain ⟨dn0, hdn0⟩ := hDn
      have hspec0 := hinv.par_spec n l hl u
      have h2 := hpar_old n l hl
      -- auxiliary: the right-hand side for old nodes other than current
      have haux1 : ∀ hu : u ≠ current,
          ((alookup (st.distances ++ ((sortedSuccessors G current).filter
              (fun v => (alookup st.distances v).isNone)).map (fun v => (v, cdv + 1))) u).isSome = true ∧
            u ∉ rest ++ (sortedSuccessors G current).filter
              (fun v => (alookup st.distances v).isNone) ∧ edgeRel G u n ∧
            ∃ du dn, alookup (st.distances ++ ((sortedSuccessors G current).filter
                (fun v => (alookup st.distances v).isNone)).map (fun v => (v, cdv + 1))) u = some du ∧
              alookup (st.distances ++ ((sortedSuccessors G current).filter
                (fun v => (alookup st.distances v).isNone)).map (fun v => (v, cdv + 1))) n = some dn ∧
              du + 1 = dn) ↔
          ((alookup st.distances u).isSome = true ∧ u ∉ st.queue ∧ edgeRel G u n ∧
            ∃ du dn, alookup st.distances u = some du ∧ alookup st.distances n = some dn ∧
              du + 1 = dn) := by
        intro hu
        constructor
        · rintro ⟨hs, hnq, he, du, dn, hdu, hdn, hsum⟩
          rw [hqueue_mem] at hnq
          push_neg at hnq
          have hsold : (alookup st.distances u).isSome = true := by
            rcases (hdist_isSome u).mp hs with h | h
            · exact h
            · exact absurd h hnq.2
          obtain ⟨du0, hdu0⟩ := Option.isSome_iff_exists.mp hsold
          have e1 : alookup _ u = some du0 := hdist_old u du0 hdu0
          rw [e1] at hdu
          have e2 : alookup _ n = some dn0 := hdist_old n dn0 hdn0
          rw [e2] at hdn
          have hdueq : du0 = du := (Option.some.injEq _ _).mp hdu
          have hdneq : dn0 = dn := (Option.some.injEq _ _).mp hdn
          refine ⟨hsold, ?_, he, du0, dn0, hdu0, hdn0, by omega⟩
          rw [hq]
          intro hmem
          rcases List.mem_cons.mp hmem with h | h
          · exact hu h
          · exact hnq.1 h
        · rintro ⟨hs, hnq, he, du, dn, hdu, hdn, hsum⟩
          have hnot_rest : u ∉ rest := fun h => hnq (hrest_sub u h)
          have hnotN : u ∉ (sortedSuccessors G current).filter
              (fun v => (alookup st.distances v).isNone) := by
            intro h
            have := (hNmem u h).1
            rw [this] at hs
            exact Bool.noConfusion hs
          refine ⟨(hdist_isSome u).mpr (Or.inl hs), ?_, he, du, dn,
            hdist_old u du hdu, hdist_old n dn hdn, hsum⟩
          rw [hqueue_mem]
          push_neg
          exact ⟨hnot_rest, hnotN⟩
      -- the right-hand side for current itself is equivalent to the flag
      have haux2 :
          ((alookup (st.distances ++ ((sortedSuccessors G current).filter
              (fun v => (alookup st.distances v).isNone)).map (fun v => (v, cdv + 1))) current).isSome = true ∧
            current ∉ rest ++ (sortedSuccessors G current).filter
              (fun v => (alookup st.distances v).isNone) ∧ edgeRel G current n ∧
            ∃ du dn, alookup (st.distances ++ ((sortedSuccessors G current).filter
                (fun v => (alookup st.distances v).isNone)).map (fun v => (v, cdv + 1))) current = some du ∧
              alookup (st.distances ++ ((sortedSuccessors G current).filter
                (fun v => (alookup st.distances v).isNone)).map (fun v => (v, cdv + 1))) n = some dn ∧
              du + 1 = dn) ↔
          oldFlag (sortedSuccessors G current) st.distances cdv n = true := by
        constructor
        · rintro ⟨hs, hnq, he, du, dn, hdu, hdn, hsum⟩
          rw [oldFlag_iff]
          have h3 : alookup _ current = some cdv := hdist_old current cdv hcd
          rw [h3] at hdu
          have h4 : alookup _ n = some dn0 := hdist_old n dn0 hdn0
          rw [h4] at hdn
          have hdueq : cdv = du := (Option.some.injEq _ _).mp hdu
          have hdneq : dn0 = dn := (Option.some.injEq _ _).mp hdn
          refine ⟨mem_sortedSuccessors.mpr he, ?_⟩
          rw [hdn0]
          congr 1
          omega
        · intro hf
          obtain ⟨hnS, hdncd⟩ := oldFlag_iff.mp hf
          refine ⟨(hdist_isSome current).mpr (Or.inl (by rw [hcd]; rfl)), ?_,
            hSedge n hnS, cdv, cdv + 1, hdist_old current cdv hcd, ?_, rfl⟩
          · rw [hqueue_mem]
            push_neg
            exact ⟨hcur_rest, hcurN⟩
          · exact hdist_old n (cdv + 1) hdncd
      by_cases hf : oldFlag (sortedSuccessors G current) st.distances cdv n = true
      · rw [if_pos hf] at h2
        rw [h2] at hl'
        have : l' = l ++ [current] := (Option.some.injEq _ _).mp hl'.symm
        subst this
        rw [List.mem_append, List.mem_singleton]
        constructor
        · rintro (hul | huc)
          · exact (haux1 (by
              intro hue
              subst hue
              have := (hspec0.mp hul).2.1
              rw [hq] at this
              exact this (List.mem_cons_self _ _))).mpr (hspec0.mp hul)
          · subst huc
            exact haux2.mpr hf
        · intro hrhs
          by_cases hu : u = current
          · exact Or.inr hu
          · exact Or.inl (hspec0.mpr ((haux1 hu).mp hrhs))
      · rw [if_neg hf] at h2
        rw [h2] at hl'
        have : l' = l := (Option.some.injEq _ _).mp hl'.symm
        subst this
        constructor
        · intro hul
          exact (haux1 (by
            intro hue
            subst hue
            have := (hspec0.mp hul).2.1
            rw [hq] at this
            exact this (List.mem_cons_self _ _))).mpr (hspec0.mp hul)
        · intro hrhs
          by_cases hu : u = current
          · subst hu
            exact absurd (haux2.mp hrhs) hf
          · exact hspec0.mpr ((haux1 hu).mp hrhs)
    | none =>
      -- n is newly discovered (or unknown)
      have hD : alookup st.distances n = none := (hpar_none_iff n).mp hl
      have h2 := hpar_new n hl
      by_cases hnN : n ∈ (sortedSuccessors G current).filter
          (fun v => (alookup st.distances v).isNone)
      · rw [if_pos hnN] at h2
        rw [h2] at hl'
        have : l' = [current] := (Option.some.injEq _ _).mp hl'.symm
        subst this
        rw [List.mem_singleton]
        have hdn' : alookup (st.distances ++ ((sortedSuccessors G current).filter
            (fun v => (alookup st.distances v).isNone)).map (fun v => (v, cdv + 1))) n =
            some (cdv + 1) := by
          rw [hdist_new n hD, if_pos hnN]
        constructor
        · intro hu
          subst hu
          refine ⟨(hdist_isSome u).mpr (Or.inl (by rw [hcd]; rfl)), ?_,
            hSedge n (hNmem n hnN).2, cdv, cdv + 1, hdist_old u cdv hcd, hdn', rfl⟩
          rw [hqueue_mem]
          push_neg
          exact ⟨hcur_rest, hcurN⟩
        · rintro ⟨hs, hnq, he, du, dn, hdu, hdn, hsum⟩
          rw [hqueue_mem] at hnq
          push_neg at hnq
          have hsold : (alookup st.distances u).isSome = true := by
            rcases (hdist_isSome u).mp hs with h | h
            · exact h
            · exact absurd h hnq.2
          by_cases hu : u = current
          · exact hu
          · exfalso
            have hu_notq : u ∉ st.queue := by
              rw [hq]
              intro hmem
              rcases List.mem_cons.mp hmem with h | h
              · exact hu h
              · exact hnq.1 h
            have := hinv.proc_closed u hsold hu_notq n he
            rw [hD] at this
            exact Bool.noConfusion this
      · rw [if_neg hnN] at h2
        rw [h2] at hl'
        exact Option.noConfusion hl'
  · -- proc_closed
    intro u hs hnq v he
    rw [List.mem_append] at hnq
    push_neg at hnq
    have hsold : (alookup st.distances u).isSome = true := by
      rcases (hdist_isSome u).mp hs with h | h
      · exact h
      · exact absurd h hnq.2
    by_cases hu : u = current
    · subst hu
      have hvS : v ∈ sortedSuccessors G u := mem_sortedSuccessors.mpr he
      rcases hNofS v hvS with h | h
      · exact (hdist_isSome v).mpr (Or.inl h)
      · exact (hdist_isSome v).mpr (Or.inr h)
    · have hu_notq : u ∉ st.queue := by
        rw [hq]
        intro hmem
        rcases List.mem_cons.mp hmem with h | h
        · exact hu h
        · exact hnq.1 h
      exact (hdist_isSome v).mpr (Or.inl (hinv.proc_closed u hsold hu_notq v he))
  · -- length accounting
    refine ⟨((sortedSuccessors G current).filter
      (fun v => (alookup st.distances v).isNone)).length, ?_, ?_⟩
    · rw [List.length_append, List.length_map]
    · rw [List.length_append]

theorem inv_dist_le {G : DiGraph} {module : String} {st : BfsState} (hwf : G.WF)
    (hinv : BfsInv G module st) : st.distances.length ≤ G.nodes.length := by
  have h1 : (st.distances.map Prod.fst).length ≤ G.nodes.length :=
    length_le_of_nodup_subset hinv.keys_nodup hwf.1
      (fun x hx => hinv.disc_nodes x (alookup_isSome_iff.mpr hx))
  simpa using h1

theorem bfsLoop_inv {G : DiGraph} (hwf : G.WF) {module : String} :
    ∀ (fuel : Nat) (st : BfsState), BfsInv G module st →
      (G.nodes.length + 1 - st.distances.length) + st.queue.length ≤ fuel →
      BfsInv G module (bfsLoop G fuel st) ∧ (bfsLoop G fuel st).queue = [] := by
  intro fuel
  induction fuel with
  | zero =>
    intro st hinv hfuel
    exfalso
    have hd := inv_dist_le hwf hinv
    omega
  | succ fuel ih =>
    intro st hinv hfuel
    cases hqe : st.queue with
    | nil =>
      have heq : bfsLoop G (fuel + 1) st = st := by
        unfold bfsLoop
        rw [hqe]
      rw [heq]
      exact ⟨hinv, hqe⟩
    | cons current rest =>
      obtain ⟨hinv2, k, hk1, hk2⟩ := bfsStep_inv hwf hinv hqe
      have heq : bfsLoop G (fuel + 1) st =
          bfsLoop G fuel (bfsStep G { st with queue := rest } current) := by
        show (match st.queue with
          | [] => st
          | current :: rest => bfsLoop G fuel (bfsStep G { st with queue := rest } current)) =
          bfsLoop G fuel (bfsStep G { st with queue := rest } current)
        rw [hqe]
      rw [heq]
      refine ih _ hinv2 ?_
      have hd2 := inv_dist_le hwf hinv2
      rw [hk1] at hd2
      rw [hk1, hk2]
      have hqlen : st.queue.length = rest.length + 1 := by
        rw [hqe]
        rfl
      omega

theorem bfsRun_inv {G : DiGraph} (hwf : G.WF) {module : String} (hm : module ∈ G.nodes) :
    BfsInv G module (bfsRun G module) ∧ (bfsRun G module).queue = [] := by
  unfold bfsRun
  refine bfsLoop_inv hwf (G.nodes.length + 1) _ ?_ ?_
  · constructor
    · rfl
    · simp
    · simp [alookup]
    · intro q hq
      have : q = module := by simpa using hq
      subst this
      simp [alookup]
    · simp
    · intro n h
      by_cases hn : module = n
      · subst hn; exact hm
      · simp [alookup, hn] at h
    · intro n d hd
      by_cases hn : module = n
      · subst hn
        simp [alookup] at hd
        simp [← hd]
      · simp [alookup, hn] at hd
    · intro n d hd
      by_cases hn : module = n
      · subst hn
        simp [alookup] at hd
        simp [← hd]
      · simp [alookup, hn] at hd
    · intro n h
      by_cases hn : module = n
      · subst hn; exact Relation.ReflTransGen.refl
      · simp [alookup, hn] at h
    · intro n h hnm
      by_cases hn : module = n
      · exact absurd hn.symm hnm
      · simp [alookup, hn] at h
    · intro n l hl u
      by_cases hn : module = n
      · subst hn
        have hl3 : l = [] := by
          have he0 : alookup [(module, ([] : List String))] module = some [] := by
            simp [alookup]
          rw [he0] at hl
          exact ((Option.some.injEq _ _).mp hl).symm
        subst hl3
        constructor
        · intro hu
          exact absurd hu (List.not_mem_nil u)
        · rintro ⟨hs, hq2, he, du, dn, hdu, hdn, hsum⟩
          exfalso
          by_cases hu : module = u
          · subst hu
            exact hq2 (List.mem_singleton_self _)
          · simp [alookup, hu] at hdu
      · simp [alookup, hn] at hl
    · intro u hs hq v he
      exfalso
      by_cases hu : module = u
      · subst hu
        exact hq (List.mem_singleton_self _)
      · simp [alookup, hu] at hs
  · simp

theorem bfsRun_discovered_iff {G : DiGraph} (hwf : G.WF) {module : String}
    (hm : module ∈ G.nodes) (n : String) :
    (alookup (bfsRun G module).distances n).isSome = true ↔
      Relation.ReflTransGen (edgeRel G) module n := by
  obtain ⟨hinv, hq⟩ := bfsRun_inv hwf hm
  constructor
  · exact hinv.disc_reach n
  · intro h
    induction h with
    | refl => rw [hinv.module_mem]; rfl
    | tail h1 h2 ih =>
      exact hinv.proc_closed _ ih (by rw [hq]; exact List.not_mem_nil _) _ h2

/-- In the final BFS state, the parent list of a discovered node holds
exactly the discovered nodes one level above it with an edge to it. -/
theorem bfsRun_par_spec {G : DiGraph} (hwf : G.WF) {module : String}
    (hm : module ∈ G.nodes) {n : String} {l : List String}
    (hl : alookup (bfsRun G module).parents n = some l) (u : String) :
    u ∈ l ↔ ((alookup (bfsRun G module).distances u).isSome = true ∧ edgeRel G u n ∧
      ∃ du dn, alookup (bfsRun G module).distances u = some du ∧
        alookup (bfsRun G module).distances n = some dn ∧ du + 1 = dn) := by
  obtain ⟨hinv, hq⟩ := bfsRun_inv hwf hm
  rw [hinv.par_spec n l hl u]
  constructor
  · rintro ⟨hs, _, he, hrest⟩
    exact ⟨hs, he, hrest⟩
  · rintro ⟨hs, he, hrest⟩
    exact ⟨hs, by rw [hq]; exact List.not_mem_nil _, he, hrest⟩

/-- Nested string-keyed dict, the return shape of the tree queries
(Python `{child1: {...}, child2: {...}}`). Keys are listed in
insertion order, which the builders keep sorted. -/
inductive STree where
  | node : List (String × STree) → STree
deriving Repr

/-- Python `min(parents_by_dist[n])` (with `None` when the node has no
entry or an empty parent list). -/
def minParent (st : BfsState) (n : String) : Option String :=
  (alookup st.parents n).bind listMin

/-- The children map of `_get_transitive_dependencies_tree_shortest`:
`children[p]` collects every discovered node (other than the root) whose
alphabetically first shortest-path parent is `p`; `build` walks it in
sorted order. -/
def childrenOf (st : BfsState) (module p : String) : List String :=
  sortStrs ((st.distances.map Prod.fst).filter
    (fun n => !(n == module) && (minParent st n == some p)))

/-- The recursive `build` of `_get_transitive_dependencies_tree_shortest`.
`fuel` bounds the recursion depth; chains of children strictly increase
the BFS distance, so the fuel passed by the callers below never runs
out. -/
def buildTree (st : BfsState) (module : String) : Nat → String → STree
  | 0, _ => .node []
  | fuel + 1, p =>
    .node ((childrenOf st module p).map (fun c => (c, buildTree st module fuel c)))

/-- Embedding of `deps_graph._get_transitive_dependencies_tree_shortest`. -/
def get_transitive_dependencies_tree_shortest (G : DiGraph) (module : String) : STree :=
  if module ∈ G.nodes then
    buildTree (bfsRun G module) module (G.nodes.length + 1) module
  else .node []

/-- The recursive `build_all_paths` of `get_transitive_dependencies_tree`:
for each sorted out-neighbor not on the current path from the root,
recurse with the neighbor added to the branch-local visited set. `fuel`
bounds the recursion depth; the visited set grows at every level, so the
fuel passed by the caller never runs out on a well-formed graph. -/
def buildAllPaths (G : DiGraph) : Nat → List String → String → STree
  | 0, _, _ => .node []
  | fuel + 1, visited, node =>
    .node (((sortedSuccessors G node).filter (fun c => !(visited.contains c))).map
      (fun c => (c, buildAllPaths G fuel (c :: visited) c)))

/-- Embedding of `deps_graph.get_transitive_dependencies_tree`. -/
def get_transitive_dependencies_tree (G : DiGraph) (module : String)
    (all_paths : Bool) : STree :=
  if module ∈ G.nodes then
    match all_paths with
    | true => buildAllPaths G (G.nodes.length + 1) [] module
    | false => get_transitive_dependencies_tree_shortest G module
  else .node []

mutual

/-- All keys of a nested tree, at any depth. -/
def allKeys : STree → List String
  | .node l => allKeysList l

def allKeysList : List (String × STree) → List String
  | [] => []
  | (k, t) :: rest => k :: (allKeys t ++ allKeysList rest)

end

mutual

/-- All root-to-node key chains of a nested tree (including the empty
chain). -/
def chains : STree → List (List String)
  | .node l => [] :: chainsList l

def chainsList : List (String × STree) → List (List String)
  | [] => []
  | (k, t) :: rest => (chains t).map (fun c => k :: c) ++ chainsList rest

end

mutual

/-- The parent key under which `n` appears in a nested tree whose root
key is `root` (the first occurrence in key order). -/
def findPar (root : String) : STree → String → Option String
  | .node l, n => findParList root l n

def findParList (root : String) : List (String × STree) → String → Option String
  | [], _ => none
  | (k, t) :: rest, n =>
    if k = n then some root
    else
      match findPar k t n with
      | some p => some p
      | none => findParList root rest n

end

theorem mem_allKeys_node {l : List (String × STree)} {x : String} :
    x ∈ allKeys (.node l) ↔ ∃ p ∈ l, x = p.1 ∨ x ∈ allKeys p.2 := by
  show x ∈ allKeysList l ↔ _
  induction l with
  | nil => simp [allKeysList]
  | cons p rest ih =>
    obtain ⟨k, t⟩ := p
    show x ∈ k :: (allKeys t ++ allKeysList rest) ↔ _
    rw [List.mem_cons, List.mem_append, ih]
    constructor
    · rintro (h | h | ⟨q, hq, hx⟩)
      · exact ⟨(k, t), List.mem_cons_self _ _, Or.inl h⟩
      · exact ⟨(k, t), List.mem_cons_self _ _, Or.inr h⟩
      · exact ⟨q, List.mem_cons_of_mem _ hq, hx⟩
    · rintro ⟨q, hq, hx⟩
      rcases List.mem_cons.mp hq with h | h
      · subst h
        rcases hx with h | h
        · exact Or.inl h
        · exact Or.inr (Or.inl h)
      · exact Or.inr (Or.inr ⟨q, h, hx⟩)

theorem mem_chainsList {l : List (String × STree)} {c : List String} :
    c ∈ chainsList l ↔ ∃ p ∈ l, ∃ c2, c2 ∈ chains p.2 ∧ c = p.1 :: c2 := by
  induction l with
  | nil => simp [chainsList]
  | cons p rest ih =>
    obtain ⟨k, t⟩ := p
    show c ∈ (chains t).map (fun c2 => k :: c2) ++ chainsList rest ↔ _
    rw [List.mem_append, ih]
    constructor
    · rintro (h | ⟨q, hq, c2, hc2, hceq⟩)
      · obtain ⟨c2, hc2, hceq⟩ := List.mem_map.mp h
        exact ⟨(k, t), List.mem_cons_self _ _, c2, hc2, hceq.symm⟩
      · exact ⟨q, List.mem_cons_of_mem _ hq, c2, hc2, hceq⟩
    · rintro ⟨q, hq, c2, hc2, hceq⟩
      rcases List.mem_cons.mp hq with h | h
      · subst h
        exact Or.inl (List.mem_map.mpr ⟨c2, hc2, hceq.symm⟩)
      · exact Or.inr ⟨q, h, c2, hc2, hceq⟩

theorem chains_mem_node {l : List (String × STree)} {c : List String} :
    c ∈ chains (.node l) ↔ c = [] ∨ c ∈ chainsList l := by
  show c ∈ [] :: chainsList l ↔ _
  rw [List.mem_cons]

theorem not_contains_of_filter {visited : List String} {c : String}
    {l : List String} (h : c ∈ l.filter (fun c => !(visited.contains c))) :
    c ∉ visited := by
  have h2 := (List.mem_filter.mp h).2
  intro hmem
  have h3 : visited.contains c = true := List.elem_iff.mpr hmem
  rw [h3] at h2
  exact Bool.noConfusion h2

/-- Along every chain of the all-paths tree no identifier repeats, and
no chain element lies in the branch-local visited set the call started
with. -/
theorem chains_buildAllPaths (G : DiGraph) :
    ∀ (fuel : Nat) (visited : List String) (node : String),
      ∀ c ∈ chains (buildAllPaths G fuel visited node),
        c.Nodup ∧ ∀ x ∈ c, x ∉ visited := by
  intro fuel
  induction fuel with
  | zero =>
    intro visited node c hc
    have hnil : c = [] := by
      rcases chains_mem_node.mp hc with h | h
      · exact h
      · exact absurd h (by simp [chainsList])
    subst hnil
    exact ⟨List.nodup_nil, by simp⟩
  | succ fuel ih =>
    intro visited node c hc
    rcases chains_mem_node.mp hc with h | h
    · subst h
      exact ⟨List.nodup_nil, by simp⟩
    · rw [mem_chainsList] at h
      obtain ⟨p, hp, c2, hc2, hceq⟩ := h
      obtain ⟨k, hkmem, hkp⟩ := List.mem_map.mp hp
      have hknot : k ∉ visited := not_contains_of_filter hkmem
      have hc2r : c2 ∈ chains (buildAllPaths G fuel (k :: visited) k) := by
        rw [← hkp] at hc2
        exact hc2
      have hrec := ih (k :: visited) k c2 hc2r
      have hp1 : p.1 = k := by rw [← hkp]
      rw [hceq, hp1]
      constructor
      · refine List.nodup_cons.mpr ⟨?_, hrec.1⟩
        intro hkx
        exact (hrec.2 k hkx) (List.mem_cons_self _ _)
      · intro x hx
        rcases List.mem_cons.mp hx with h | h
        · subst h; exact hknot
        · intro hxv
          exact (hrec.2 x h) (List.mem_cons_of_mem _ hxv)

/-- The all-paths recursion is insensitive to extra fuel once the fuel
covers the maximal possible branch depth: the recursion terminates. -/
theorem buildAllPaths_stable {G : DiGraph} (hwf : G.WF) :
    ∀ (d : Nat) (visited : List String), visited.Nodup →
      (∀ x ∈ visited, x ∈ G.nodes) → G.nodes.length ≤ visited.length + d →
      ∀ f1 f2, d ≤ f1 → d ≤ f2 → ∀ node,
        buildAllPaths G f1 visited node = buildAllPaths G f2 visited node := by
  intro d
  induction d with
  | zero =>
    intro visited hnd hsub hlen f1 f2 _ _ node
    have hfull : ∀ x, x ∈ G.nodes → x ∈ visited := by
      intro x hx
      by_contra hxv
      have hnd2 : (x :: visited).Nodup := List.nodup_cons.mpr ⟨hxv, hnd⟩
      have hsub2 : ∀ y ∈ x :: visited, y ∈ G.nodes := by
        intro y hy
        rcases List.mem_cons.mp hy with h | h
        · subst h; exact hx
        · exact hsub y h
      have hle := length_le_of_nodup_subset hnd2 hwf.1 hsub2
      simp at hle
      omega
    have hempty : ∀ m : String,
        ((sortedSuccessors G m).filter (fun c => !(visited.contains c))) = [] := by
      intro m
      rw [List.eq_nil_iff_forall_not_mem]
      intro c hcm
      have hcS := (List.mem_filter.mp hcm).1
      have hcn : c ∈ G.nodes := (hwf.2.2 _ (mem_sortedSuccessors.mp hcS)).2
      exact (not_contains_of_filter hcm) (hfull c hcn)
    cases f1 with
    | zero =>
      cases f2 with
      | zero => rfl
      | succ g2 => show STree.node [] = STree.node _; rw [hempty]; rfl
    | succ g1 =>
      cases f2 with
      | zero => show STree.node _ = STree.node []; rw [hempty]; rfl
      | succ g2 =>
        show STree.node _ = STree.node _
        rw [hempty]
        rfl
  | succ d ihd =>
    intro visited hnd hsub hlen f1 f2 hf1 hf2 node
    obtain ⟨g1, rfl⟩ : ∃ g, f1 = g + 1 := ⟨f1 - 1, by omega⟩
    obtain ⟨g2, rfl⟩ : ∃ g, f2 = g + 1 := ⟨f2 - 1, by omega⟩
    show STree.node _ = STree.node _
    congr 1
    refine List.map_congr_left ?_
    intro c hcmem
    have hcS : c ∈ sortedSuccessors G node := (List.mem_filter.mp hcmem).1
    have hcv : c ∉ visited := not_contains_of_filter hcmem
    have hcn : c ∈ G.nodes := (hwf.2.2 _ (mem_sortedSuccessors.mp hcS)).2
    have hrec := ihd (c :: visited) (List.nodup_cons.mpr ⟨hcv, hnd⟩)
      (by
        intro y hy
        rcases List.mem_cons.mp hy with h | h
        · subst h; exact hcn
        · exact hsub y h)
      (by simp; omega) g1 g2 (by omega) (by omega) c
    rw [hrec]

/-- Two-node graph with a cycle back through the root: `m → a → m`. -/
def mCycleGraph : DiGraph := ⟨["a", "m"], [("m", "a"), ("a", "m")]⟩

/-- C7 (amended): in the all-paths tree, along any chain of nested keys
from the top of the tree no identifier repeats (the branch-local visited
set blocks re-adding any out-neighbor already recorded on the branch),
and the recursion terminates on every well-formed graph, cyclic ones
included (extra fuel beyond the node count never changes the result).
The original claim additionally asserted that the root module never
appears as a key; that part is false (see the counterexample) because
the visited set does not initially contain the root, so a cycle back to
the root re-adds it once per chain. -/
theorem claim_C7 (G : DiGraph) (hwf : G.WF) (m : String) :
    (∀ c ∈ chains (get_transitive_dependencies_tree G m true), c.Nodup) ∧
    (∀ fuel, G.nodes.length + 1 ≤ fuel →
      buildAllPaths G fuel [] m = buildAllPaths G (G.nodes.length + 1) [] m) := by
  constructor
  · intro c hc
    by_cases hm : m ∈ G.nodes
    · unfold get_transitive_dependencies_tree at hc
      rw [if_pos hm] at hc
      exact (chains_buildAllPaths G (G.nodes.length + 1) [] m c hc).1
    · unfold get_transitive_dependencies_tree at hc
      rw [if_neg hm] at hc
      have hnil : c = [] := by
        rcases chains_mem_node.mp hc with h | h
        · exact h
        · exact absurd h (by simp [chainsList])
      subst hnil
      exact List.nodup_nil
  · intro fuel hfuel
    exact buildAllPaths_stable hwf (G.nodes.length + 1) [] (by simp) (by simp)
      (by simp) fuel (G.nodes.length + 1) hfuel (Nat.le_refl _) m

theorem claim_C7_witness :
    DiGraph.WF mCycleGraph ∧
    ((∀ c ∈ chains (get_transitive_dependencies_tree mCycleGraph ("m") true), c.Nodup) ∧
    (∀ fuel, mCycleGraph.nodes.length + 1 ≤ fuel →
      buildAllPaths mCycleGraph fuel [] ("m") =
        buildAllPaths mCycleGraph (mCycleGraph.nodes.length + 1) [] ("m"))) :=
  ⟨by decide, claim_C7 mCycleGraph (by decide) ("m")⟩

/-- C7 counterexample: with edges `m → a` and `a → m`, the module `m`
itself appears as a key (at depth 2) in its own all-paths tree, refuting
the claim that `m` never appears as a key at any depth. -/
theorem claim_C7_counterexample :
    ("m") ∈ allKeys (get_transitive_dependencies_tree mCycleGraph ("m") true) := by
  decide

/-- The tree-parent relation chosen by
`_get_transitive_dependencies_tree_shortest`: `a` is the alphabetically
first minimal-distance parent of `b`. -/
def parRel (G : DiGraph) (m : String) (a b : String) : Prop :=
  minParent (bfsRun G m) b = some a

theorem parRel_facts {G : DiGraph} (hwf : G.WF) {m : String} (hm : m ∈ G.nodes)
    {a b : String} (h : parRel G m a b) :
    ∃ da db, alookup (bfsRun G m).distances a = some da ∧
      alookup (bfsRun G m).distances b = some db ∧ da + 1 = db ∧
      edgeRel G a b ∧ b ≠ m := by
  obtain ⟨hinv, _⟩ := bfsRun_inv hwf hm
  unfold parRel minParent at h
  obtain ⟨l, hl, hmin⟩ := Option.bind_eq_some.mp h
  have hal := (listMin_spec hmin).1
  obtain ⟨hs, he, da, db, hda, hdb, hsum⟩ := (bfsRun_par_spec hwf hm hl a).mp hal
  refine ⟨da, db, hda, hdb, hsum, he, ?_⟩
  intro hb
  subst hb
  rw [hinv.module_mem] at hdb
  have : db = 0 := ((Option.some.injEq _ _).mp hdb).symm
  omega

theorem parRel_exists {G : DiGraph} (hwf : G.WF) {m : String} (hm : m ∈ G.nodes)
    {b : String} (hb : (alookup (bfsRun G m).distances b).isSome = true)
    (hbm : b ≠ m) : ∃ a, parRel G m a b := by
  obtain ⟨hinv, _⟩ := bfsRun_inv hwf hm
  obtain ⟨l, hl, hlne⟩ := hinv.par_ne b hb hbm
  obtain ⟨a, ha⟩ := Option.isSome_iff_exists.mp (listMin_isSome hlne)
  exact ⟨a, by unfold parRel minParent; rw [hl]; exact ha⟩

theorem mem_childrenOf {G : DiGraph} (hwf : G.WF) {m : String} (hm : m ∈ G.nodes)
    {p c : String} :
    c ∈ childrenOf (bfsRun G m) m p ↔ (parRel G m p c ∧ c ≠ m) := by
  obtain ⟨hinv, _⟩ := bfsRun_inv hwf hm
  unfold childrenOf
  rw [mem_sortStrs, List.mem_filter]
  constructor
  · rintro ⟨_, hpred⟩
    rw [Bool.and_eq_true] at hpred
    obtain ⟨h1, h2⟩ := hpred
    refine ⟨beq_iff_eq.mp h2, ?_⟩
    intro hcm
    rw [hcm] at h1
    simp at h1
  · rintro ⟨hpc, hcm⟩
    have hkey : c ∈ (bfsRun G m).distances.map Prod.fst := by
      unfold parRel minParent at hpc
      obtain ⟨l, hl, _⟩ := Option.bind_eq_some.mp hpc
      rw [← hinv.keys_eq]
      exact alookup_isSome_iff.mp (by rw [hl]; rfl)
    refine ⟨hkey, ?_⟩
    rw [Bool.and_eq_true]
    constructor
    · simp [hcm]
    · exact beq_iff_eq.mpr hpc

/-- Every discovered node other than the root is connected to the root
by a chain of chosen tree parents. -/
theorem transGen_parRel_of_discovered {G : DiGraph} (hwf : G.WF) {m : String}
    (hm : m ∈ G.nodes) :
    ∀ (dn : Nat) (n : String), alookup (bfsRun G m).distances n = some dn → n ≠ m →
      Relation.TransGen (parRel G m) m n := by
  obtain ⟨hinv, _⟩ := bfsRun_inv hwf hm
  intro dn
  induction dn using Nat.strong_induction_on with
  | _ dn ih =>
    intro n hn hnm
    obtain ⟨q, hq⟩ := parRel_exists hwf hm (by rw [hn]; rfl) hnm
    obtain ⟨dq, dn2, hdq, hdn2, hsum, _, _⟩ := parRel_facts hwf hm hq
    rw [hn] at hdn2
    have hdneq : dn = dn2 := (Option.some.injEq _ _).mp hdn2
    by_cases hqm : q = m
    · subst hqm
      exact Relation.TransGen.single hq
    · have : Relation.TransGen (parRel G m) m q := ih dq (by omega) q hdq hqm
      exact Relation.TransGen.tail this hq

theorem discovered_of_transGen {G : DiGraph} (hwf : G.WF) {m : String}
    (hm : m ∈ G.nodes) {a n : String} (h : Relation.TransGen (parRel G m) a n) :
    (alookup (bfsRun G m).distances n).isSome = true ∧ n ≠ m := by
  induction h with
  | single h1 =>
    obtain ⟨_, db, _, hdb, _, _, hne⟩ := parRel_facts hwf hm h1
    exact ⟨by rw [hdb]; rfl, hne⟩
  | tail h1 h2 ih =>
    obtain ⟨_, db, _, hdb, _, _, hne⟩ := parRel_facts hwf hm h2
    exact ⟨by rw [hdb]; rfl, hne⟩

/-- Keys of the built shortest-path subtree rooted at a discovered node
`p` are exactly the strict tree-descendants of `p`. -/
theorem allKeys_buildTree {G : DiGraph} (hwf : G.WF) {m : String} (hm : m ∈ G.nodes) :
    ∀ (fuel : Nat) (p : String) (dp : Nat),
      alookup (bfsRun G m).distances p = some dp →
      (bfsRun G m).distances.length ≤ dp + fuel →
      ∀ n, (n ∈ allKeys (buildTree (bfsRun G m) m fuel p) ↔
        Relation.TransGen (parRel G m) p n) := by
  intro fuel
  induction fuel with
  | zero =>
    intro p dp hp hbound n
    exfalso
    obtain ⟨hinv, _⟩ := bfsRun_inv hwf hm
    have := hinv.dist_lt p dp hp
    omega
  | succ fuel ih =>
    intro p dp hp hbound n
    show n ∈ allKeys (.node ((childrenOf (bfsRun G m) m p).map
      (fun c => (c, buildTree (bfsRun G m) m fuel c)))) ↔ _
    rw [mem_allKeys_node]
    constructor
    · rintro ⟨q, hq, hx⟩
      obtain ⟨c, hc, hcq⟩ := List.mem_map.mp hq
      obtain ⟨hpc, hcm⟩ := (mem_childrenOf hwf hm).mp hc
      obtain ⟨da, db, hda, hdb, hsum, _, _⟩ := parRel_facts hwf hm hpc
      rw [hp] at hda
      have hdaeq : dp = da := (Option.some.injEq _ _).mp hda
      have hdc : alookup (bfsRun G m).distances c = some (dp + 1) := by
        rw [hdb]
        congr 1
        omega
      rcases hx with hx | hx
      · rw [← hcq] at hx
        rw [hx]
        exact Relation.TransGen.single hpc
      · rw [← hcq] at hx
        have h2 := (ih c (dp + 1) hdc (by omega) n).mp hx
        exact Relation.TransGen.head hpc h2
    · intro htg
      obtain ⟨c, hpc, hrest⟩ := Relation.TransGen.head'_iff.mp htg
      obtain ⟨da, db, hda, hdb, hsum, _, hcm⟩ := parRel_facts hwf hm hpc
      rw [hp] at hda
      have hdaeq : dp = da := (Option.some.injEq _ _).mp hda
      have hdc : alookup (bfsRun G m).distances c = some (dp + 1) := by
        rw [hdb]
        congr 1
        omega
      have hcchild : c ∈ childrenOf (bfsRun G m) m p :=
        (mem_childrenOf hwf hm).mpr ⟨hpc, hcm⟩
      refine ⟨(c, buildTree (bfsRun G m) m fuel c),
        List.mem_map.mpr ⟨c, hcchild, rfl⟩, ?_⟩
      rcases Relation.reflTransGen_iff_eq_or_transGen.mp hrest with h | h
      · exact Or.inl h
      · exact Or.inr ((ih c (dp + 1) hdc (by omega) n).mpr h)

/-- In the built shortest-path subtree rooted at a discovered node `p`,
`findPar` locates exactly the tree-descendants of `p` and reports the
alphabetically first minimal-distance parent for each. -/
theorem findPar_buildTree {G : DiGraph} (hwf : G.WF) {m : String} (hm : m ∈ G.nodes) :
    ∀ (fuel : Nat) (p : String) (dp : Nat),
      alookup (bfsRun G m).distances p = some dp →
      (bfsRun G m).distances.length ≤ dp + fuel →
      ∀ n, (Relation.TransGen (parRel G m) p n →
          findPar p (buildTree (bfsRun G m) m fuel p) n = minParent (bfsRun G m) n) ∧
        (¬ Relation.TransGen (parRel G m) p n →
          findPar p (buildTree (bfsRun G m) m fuel p) n = none) := by
  intro fuel
  induction fuel with
  | zero =>
    intro p dp hp hbound n
    exfalso
    obtain ⟨hinv, _⟩ := bfsRun_inv hwf hm
    have := hinv.dist_lt p dp hp
    omega
  | succ fuel ih =>
    intro p dp hp hbound n
    have hinner : ∀ cs : List String, (∀ c ∈ cs, c ∈ childrenOf (bfsRun G m) m p) →
        ((∃ c ∈ cs, c = n ∨ Relation.TransGen (parRel G m) c n) →
          findParList p (cs.map (fun c => (c, buildTree (bfsRun G m) m fuel c))) n =
            minParent (bfsRun G m) n) ∧
        ((¬ ∃ c ∈ cs, c = n ∨ Relation.TransGen (parRel G m) c n) →
          findParList p (cs.map (fun c => (c, buildTree (bfsRun G m) m fuel c))) n =
            none) := by
      intro cs
      induction cs with
      | nil =>
        intro _
        constructor
        · rintro ⟨c, hc, _⟩
          exact absurd hc (List.not_mem_nil c)
        · intro _
          rfl
      | cons c rest ihc =>
        intro hsub
        obtain ⟨hpc, hcm⟩ := (mem_childrenOf hwf hm).mp (hsub c (List.mem_cons_self _ _))
        obtain ⟨da, db, hda, hdb, hsum, _, _⟩ := parRel_facts hwf hm hpc
        rw [hp] at hda
        have hdaeq : dp = da := (Option.some.injEq _ _).mp hda
        have hdc : alookup (bfsRun G m).distances c = some (dp + 1) := by
          rw [hdb]
          congr 1
          omega
        have hrest := ihc (fun x hx => hsub x (List.mem_cons_of_mem _ hx))
        have hunfold : findParList p ((c :: rest).map
            (fun c => (c, buildTree (bfsRun G m) m fuel c))) n =
            (if c = n then some p else
              match findPar c (buildTree (bfsRun G m) m fuel c) n with
              | some q => some q
              | none => findParList p
                  (rest.map (fun c => (c, buildTree (bfsRun G m) m fuel c))) n) := rfl
        rw [hunfold]
        by_cases hcn : c = n
        · rw [if_pos hcn]
          constructor
          · intro _
            rw [hcn] at hpc
            exact hpc.symm
          · intro hnex
            exact absurd ⟨c, List.mem_cons_self _ _, Or.inl hcn⟩ hnex
        · rw [if_neg hcn]
          have houter := ih c (dp + 1) hdc (by omega) n
          by_cases htc : Relation.TransGen (parRel G m) c n
          · have hisc := discovered_of_transGen hwf hm htc
            obtain ⟨q, hqn⟩ := parRel_exists hwf hm hisc.1 hisc.2
            have hmin : minParent (bfsRun G m) n = some q := hqn
            rw [houter.1 htc, hmin]
            constructor
            · intro _
              rfl
            · intro hnex
              exact absurd ⟨c, List.mem_cons_self _ _, Or.inr htc⟩ hnex
          · rw [houter.2 htc]
            constructor
            · rintro ⟨c2, hc2, hq2⟩
              rcases List.mem_cons.mp hc2 with h | h
              · subst h
                rcases hq2 with h | h
                · exact absurd h hcn
                · exact absurd h htc
              · exact hrest.1 ⟨c2, h, hq2⟩
            · intro hnex
              refine hrest.2 ?_
              rintro ⟨c2, hc2, hq2⟩
              exact hnex ⟨c2, List.mem_cons_of_mem _ hc2, hq2⟩
    have houtereq : findPar p (buildTree (bfsRun G m) m (fuel + 1) p) n =
        findParList p ((childrenOf (bfsRun G m) m p).map
          (fun c => (c, buildTree (bfsRun G m) m fuel c))) n := rfl
    rw [houtereq]
    have hmain := hinner (childrenOf (bfsRun G m) m p) (fun c hc => hc)
    constructor
    · intro htg
      obtain ⟨c, hpc, hrest2⟩ := Relation.TransGen.head'_iff.mp htg
      obtain ⟨_, _, _, _, _, _, hcm⟩ := parRel_facts hwf hm hpc
      have hcchild : c ∈ childrenOf (bfsRun G m) m p :=
        (mem_childrenOf hwf hm).mpr ⟨hpc, hcm⟩
      refine hmain.1 ⟨c, hcchild, ?_⟩
      rcases Relation.reflTransGen_iff_eq_or_transGen.mp hrest2 with h | h
      · exact Or.inl h.symm
      · exact Or.inr h
    · intro hntg
      refine hmain.2 ?_
      rintro ⟨c, hc, hq⟩
      have hpc := ((mem_childrenOf hwf hm).mp hc).1
      rcases hq with h | h
      · subst h
        exact hntg (Relation.TransGen.single hpc)
      · exact hntg (Relation.TransGen.head hpc h)

theorem tree_shortest_eq {G : DiGraph} {m : String} (hm : m ∈ G.nodes) :
    get_transitive_dependencies_tree G m false =
      buildTree (bfsRun G m) m (G.nodes.length + 1) m := by
  unfold get_transitive_dependencies_tree get_transitive_dependencies_tree_shortest
  rw [if_pos hm, if_pos hm]

/-- C2: the set of keys at any depth of the shortest-path dependency
tree equals the set of transitive dependencies, and the root module is
never a key in its own tree. -/
theorem claim_C2 (G : DiGraph) (hwf : G.WF) (m : String) (hm : m ∈ G.nodes) :
    (∀ n, n ∈ allKeys (get_transitive_dependencies_tree G m false) ↔
      n ∈ get_transitive_dependencies G m) ∧
    m ∉ allKeys (get_transitive_dependencies_tree G m false) := by
  obtain ⟨hinv, _⟩ := bfsRun_inv hwf hm
  have hbound : (bfsRun G m).distances.length ≤ 0 + (G.nodes.length + 1) := by
    have := inv_dist_le hwf hinv
    omega
  have hkeys := allKeys_buildTree hwf hm (G.nodes.length + 1) m 0 hinv.module_mem hbound
  have hiff : ∀ n, n ∈ allKeys (get_transitive_dependencies_tree G m false) ↔
      Relation.TransGen (parRel G m) m n := by
    intro n
    rw [tree_shortest_eq hm]
    exact hkeys n
  constructor
  · intro n
    rw [hiff n, mem_get_transitive_dependencies hwf hm n]
    constructor
    · intro h
      obtain ⟨hdisc, hne⟩ := discovered_of_transGen hwf hm h
      exact ⟨(bfsRun_discovered_iff hwf hm n).mp hdisc, hne⟩
    · rintro ⟨hreach, hne⟩
      have hdisc := (bfsRun_discovered_iff hwf hm n).mpr hreach
      obtain ⟨d, hd⟩ := Option.isSome_iff_exists.mp hdisc
      exact transGen_parRel_of_discovered hwf hm d n hd hne
  · rw [hiff m]
    intro h
    exact (discovered_of_transGen hwf hm h).2 rfl

theorem claim_C2_witness :
    DiGraph.WF twoCycleGraph ∧ ("A") ∈ twoCycleGraph.nodes ∧
    ((∀ n, n ∈ allKeys (get_transitive_dependencies_tree twoCycleGraph ("A") false) ↔
      n ∈ get_transitive_dependencies twoCycleGraph ("A")) ∧
    ("A") ∉ allKeys (get_transitive_dependencies_tree twoCycleGraph ("A") false)) :=
  ⟨by decide, by decide, claim_C2 twoCycleGraph (by decide) ("A") (by decide)⟩

/-- The BFS distance map from `m` computed by
`_get_transitive_dependencies_tree_shortest`. -/
def getDist (G : DiGraph) (m n : String) : Option Nat :=
  alookup (bfsRun G m).distances n

/-- All nodes at BFS distance `d - 1` from `m` that have an edge to
`n`: the candidate shortest-path parents of a node at distance `d`. -/
def candidateParents (G : DiGraph) (m n : String) (d : Nat) : List String :=
  G.nodes.filter (fun u => (getDist G m u == some (d - 1)) && G.edges.contains (u, n))

theorem mem_candidateParents {G : DiGraph} {m n : String} {d : Nat} {u : String} :
    u ∈ candidateParents G m n d ↔
      (u ∈ G.nodes ∧ getDist G m u = some (d - 1) ∧ (u, n) ∈ G.edges) := by
  unfold candidateParents
  rw [List.mem_filter, Bool.and_eq_true]
  constructor
  · rintro ⟨h1, h2, h3⟩
    exact ⟨h1, beq_iff_eq.mp h2, List.elem_iff.mp h3⟩
  · rintro ⟨h1, h2, h3⟩
    exact ⟨h1, beq_iff_eq.mpr h2, List.elem_iff.mpr h3⟩

/-- C1: for every node `n` other than `m` reachable from `m`, the parent
assigned to `n` in the shortest-path dependency tree is the
lexicographically smallest node at BFS distance `dist(n) - 1` from `m`
with an edge to `n`. -/
theorem claim_C1 (G : DiGraph) (hwf : G.WF) (m : String) (hm : m ∈ G.nodes)
    (n : String) (hn : n ≠ m) (hr : Relation.ReflTransGen (edgeRel G) m n) :
    ∃ d q, getDist G m n = some d ∧
      findPar m (get_transitive_dependencies_tree G m false) n = some q ∧
      q ∈ candidateParents G m n d ∧
      ∀ x ∈ candidateParents G m n d, strLe q x = true := by
  obtain ⟨hinv, _⟩ := bfsRun_inv hwf hm
  have hdisc : (alookup (bfsRun G m).distances n).isSome = true :=
    (bfsRun_discovered_iff hwf hm n).mpr hr
  obtain ⟨d, hd⟩ := Option.isSome_iff_exists.mp hdisc
  have hdpos : 1 ≤ d := by
    rcases Nat.eq_zero_or_pos d with h | h
    · exfalso
      exact hn ((hinv.dist_zero n d hd).mp h)
    · exact h
  have htg : Relation.TransGen (parRel G m) m n :=
    transGen_parRel_of_discovered hwf hm d n hd hn
  have hbound : (bfsRun G m).distances.length ≤ 0 + (G.nodes.length + 1) := by
    have := inv_dist_le hwf hinv
    omega
  obtain ⟨q, hq⟩ := parRel_exists hwf hm hdisc hn
  have hfp : findPar m (get_transitive_dependencies_tree G m false) n = some q := by
    rw [tree_shortest_eq hm,
      (findPar_buildTree hwf hm (G.nodes.length + 1) m 0 hinv.module_mem hbound n).1 htg]
    exact hq
  obtain ⟨l, hl, hminl⟩ := Option.bind_eq_some.mp hq
  have hmem_iff : ∀ u, u ∈ l ↔ u ∈ candidateParents G m n d := by
    intro u
    rw [bfsRun_par_spec hwf hm hl u, mem_candidateParents]
    constructor
    · rintro ⟨hs, he, du, dn, hdu, hdn, hsum⟩
      rw [hd] at hdn
      have hdneq : d = dn := (Option.some.injEq _ _).mp hdn
      refine ⟨hinv.disc_nodes u hs, ?_, he⟩
      unfold getDist
      rw [hdu]
      congr 1
      omega
    · rintro ⟨hun, hgd, hedge⟩
      unfold getDist at hgd
      refine ⟨by rw [hgd]; rfl, hedge, d - 1, d, hgd, hd, by omega⟩
  obtain ⟨hql, hqle⟩ := listMin_spec hminl
  refine ⟨d, q, hd, hfp, (hmem_iff q).mp hql, ?_⟩
  intro x hx
  exact hqle x ((hmem_iff x).mpr hx)

/-- Diamond graph with two equally short paths to `c`: the tie between
parents `a` and `b` must break to the lexicographically smaller `a`. -/
def diamondGraph : DiGraph :=
  ⟨["a", "b", "c", "m"], [("m", "a"), ("m", "b"), ("a", "c"), ("b", "c")]⟩

theorem claim_C1_witness :
    DiGraph.WF diamondGraph ∧ ("m") ∈ diamondGraph.nodes ∧ ("c") ≠ ("m") ∧
    (∃ d q, getDist diamondGraph ("m") ("c") = some d ∧
      findPar ("m") (get_transitive_dependencies_tree diamondGraph ("m") false)
        ("c") = some q ∧
      q ∈ candidateParents diamondGraph ("m") ("c") d ∧
      ∀ x ∈ candidateParents diamondGraph ("m") ("c") d, strLe q x = true) :=
  ⟨by decide, by decide, by decide,
    claim_C1 diamondGraph (by decide) ("m") (by decide) ("c") (by decide)
      (Relation.ReflTransGen.tail
        (Relation.ReflTransGen.tail Relation.ReflTransGen.refl
          (show edgeRel diamondGraph ("m") ("a") by decide))
        (show edgeRel diamondGraph ("a") ("c") by decide))⟩

/-- Reconstruct the BFS shortest path to `n` by following the chosen
minimal-distance parents; `fuel` is the BFS distance of `n`. -/
def pathTo (st : BfsState) : Nat → String → List String
  | 0, n => [n]
  | fuel + 1, n =>
    match minParent st n with
    | some p => pathTo st fuel p ++ [n]
    | none => [n]

/-- Model of `networkx.shortest_path(G, u, v)` on an unweighted digraph:
a shortest directed path from `u` to `v` when one exists, `none` when
the library would raise `NetworkXNoPath` or `NodeNotFound`. -/
def shortest_path (G : DiGraph) (u v : String) : Option (List String) :=
  if u ∈ G.nodes then
    match alookup (bfsRun G u).distances v with
    | some d => some (pathTo (bfsRun G u) d v)
    | none => none
  else none

/-- Python `list(dict.fromkeys(artifacts))`: drop duplicates, keeping the
first occurrence of each element. -/
def dedupFirstAux (seen : List String) : List String → List String
  | [] => []
  | a :: l => if a ∈ seen then dedupFirstAux seen l else a :: dedupFirstAux (a :: seen) l

def dedupFirst (l : List String) : List String := dedupFirstAux [] l

/-- Model of `networkx` `H.add_node(n)`. -/
def addNode (H : DiGraph) (n : String) : DiGraph := ⟨H.nodes.insert n, H.edges⟩

/-- Model of `networkx` `H.add_edge(t, s)`: inserts the edge and both
endpoints. -/
def addEdge (H : DiGraph) (t s : String) : DiGraph :=
  ⟨(H.nodes.insert t).insert s, H.edges.insert (t, s)⟩

/-- The per-path block in `minimal_subgraph_for_artifacts`: add every
node of the path, then every edge along the path with inverted
direction. -/
def addInvertedPath (H : DiGraph) (p : List String) : DiGraph :=
  let H1 := p.foldl addNode H
  (p.zip p.tail).foldl (fun Hacc e => addEdge Hacc e.2 e.1) H1

/-- One ordered pair of the loop in `minimal_subgraph_for_artifacts`:
skip equal endpoints, skip pairs with no path, else add the inverted
shortest path. -/
def pairStep (G : DiGraph) (u v : String) (H : DiGraph) : DiGraph :=
  if u = v then H
  else
    match shortest_path G u v with
    | none => H
    | some p => addInvertedPath H p

/-- Embedding of `deps_graph.minimal_subgraph_for_artifacts`. -/
def minimal_subgraph_for_artifacts (G : DiGraph) (artifacts : List String) :
    Except String DiGraph :=
  let missing := artifacts.filter (fun a => !(G.nodes.contains a))
  if missing.isEmpty then
    let H0 : DiGraph := ⟨dedupFirst artifacts, []⟩
    if artifacts.length ≤ 1 then .ok H0
    else
      let arts := dedupFirst artifacts
      .ok (arts.foldl (fun Hu u => arts.foldl (fun Hv v => pairStep G u v Hv) Hu) H0)
  else .error ("Artifacts not found in graph: " ++ String.intercalate (", ") missing)

theorem pathTo_getLast (st : BfsState) :
    ∀ (fuel : Nat) (n : String), (pathTo st fuel n).getLast? = some n := by
  intro fuel
  induction fuel with
  | zero => intro n; rfl
  | succ fuel ih =>
    intro n
    cases hmp : minParent st n with
    | none =>
      show (match minParent st n with
        | some p => pathTo st fuel p ++ [n]
        | none => [n]).getLast? = some n
      rw [hmp]
      rfl
    | some p =>
      show (match minParent st n with
        | some p => pathTo st fuel p ++ [n]
        | none => [n]).getLast? = some n
      rw [hmp]
      exact List.getLast?_concat _

theorem pathTo_chain {G : DiGraph} (hwf : G.WF) {u : String} (hu : u ∈ G.nodes) :
    ∀ (d : Nat) (n : String), alookup (bfsRun G u).distances n = some d →
      List.Chain' (edgeRel G) (pathTo (bfsRun G u) d n) := by
  obtain ⟨hinv, _⟩ := bfsRun_inv hwf hu
  intro d
  induction d with
  | zero => intro n _; exact List.chain'_singleton n
  | succ d ih =>
    intro n h
    have hnu : n ≠ u := by
      intro hnu
      have := (hinv.dist_zero n (d + 1) h).mpr hnu
      omega
    obtain ⟨p, hp⟩ := parRel_exists hwf hu (by rw [h]; rfl) hnu
    obtain ⟨dp, dn2, hdp, hdn2, hsum, hedge, _⟩ := parRel_facts hwf hu hp
    rw [h] at hdn2
    have hdneq : d + 1 = dn2 := (Option.some.injEq _ _).mp hdn2
    have hdpd : alookup (bfsRun G u).distances p = some d := by
      rw [hdp]
      congr 1
      omega
    have heq : pathTo (bfsRun G u) (d + 1) n = pathTo (bfsRun G u) d p ++ [n] := by
      show (match minParent (bfsRun G u) n with
        | some p => pathTo (bfsRun G u) d p ++ [n]
        | none => [n]) = _
      rw [hp]
    rw [heq]
    rw [List.chain'_append]
    refine ⟨ih p hdpd, List.chain'_singleton n, ?_⟩
    intro x hx y hy
    rw [pathTo_getLast] at hx
    have hxp : x = p := Eq.symm (by simpa using hx)
    have hyn : y = n := Eq.symm (by simpa using hy)
    rw [hxp, hyn]
    exact hedge

theorem shortest_path_chain {G : DiGraph} (hwf : G.WF) {u v : String}
    {p : List String} (h : shortest_path G u v = some p) :
    List.Chain' (edgeRel G) p := by
  unfold shortest_path at h
  by_cases hu : u ∈ G.nodes
  · rw [if_pos hu] at h
    cases hlv : alookup (bfsRun G u).distances v with
    | none =>
      rw [hlv] at h
      exact Option.noConfusion h
    | some d =>
      rw [hlv] at h
      have h2 : some (pathTo (bfsRun G u) d v) = some p := h
      have h3 : pathTo (bfsRun G u) d v = p := (Option.some.injEq _ _).mp h2
      rw [← h3]
      exact pathTo_chain hwf hu d v hlv
  · rw [if_neg hu] at h
    exact Option.noConfusion h

theorem chain'_zip {R : String → String → Prop} :
    ∀ (p : List String), List.Chain' R p → ∀ e ∈ p.zip p.tail, R e.1 e.2 := by
  intro p
  induction p with
  | nil => intro _ e he; exact absurd he (List.not_mem_nil e)
  | cons x rest ih =>
    intro hch e he
    cases rest with
    | nil => exact absurd he (List.not_mem_nil e)
    | cons y rest2 =>
      obtain ⟨hxy, hch2⟩ := List.chain'_cons.mp hch
      rcases List.mem_cons.mp he with h | h
      · rw [h]
        exact hxy
      · exact ih hch2 e h

theorem bfsStep_distances {G : DiGraph} (hwf : G.WF) (st2 : BfsState)
    (current : String) :
    (bfsStep G st2 current).distances = st2.distances ++
      ((sortedSuccessors G current).filter (fun v => (alookup st2.distances v).isNone)).map
        (fun v => (v, (alookup st2.distances current).getD 0 + 1)) := by
  unfold bfsStep
  rw [fold_closed_form _ _ _ (sortedSuccessors_nodup hwf current) st2]

theorem bfsLoop_dist_mono {G : DiGraph} (hwf : G.WF) :
    ∀ (fuel : Nat) (st : BfsState) (n : String) (d : Nat),
      alookup st.distances n = some d →
      alookup (bfsLoop G fuel st).distances n = some d := by
  intro fuel
  induction fuel with
  | zero => intro st n d h; exact h
  | succ fuel ih =>
    intro st n d h
    cases hqe : st.queue with
    | nil =>
      have heq : bfsLoop G (fuel + 1) st = st := by
        unfold bfsLoop
        rw [hqe]
      rw [heq]
      exact h
    | cons current rest =>
      have heq : bfsLoop G (fuel + 1) st =
          bfsLoop G fuel (bfsStep G { st with queue := rest } current) := by
        show (match st.queue with
          | [] => st
          | current :: rest => bfsLoop G fuel (bfsStep G { st with queue := rest } current)) =
          bfsLoop G fuel (bfsStep G { st with queue := rest } current)
        rw [hqe]
      rw [heq]
      refine ih _ n d ?_
      rw [bfsStep_distances hwf]
      exact alookup_append_left _ h

/-- A direct edge is discovered at BFS distance 1. -/
theorem dist_one {G : DiGraph} (hwf : G.WF) {a b : String} (_ha : a ∈ G.nodes)
    (hab : (a, b) ∈ G.edges) (hne : b ≠ a) :
    alookup (bfsRun G a).distances b = some 1 := by
  unfold bfsRun
  have heq : bfsLoop G (G.nodes.length + 1)
      { distances := [(a, 0)], parents := [(a, [])], queue := [a] } =
      bfsLoop G G.nodes.length
        (bfsStep G { distances := [(a, 0)], parents := [(a, [])], queue := [] } a) := rfl
  rw [heq]
  refine bfsLoop_dist_mono hwf G.nodes.length _ b 1 ?_
  rw [bfsStep_distances hwf]
  dsimp only
  have hlkb : alookup ([(a, 0)] : List (String × Nat)) b = none := by
    simp [alookup, Ne.symm hne]
  have hbN : b ∈ (sortedSuccessors G a).filter
      (fun v => (alookup ([(a, 0)] : List (String × Nat)) v).isNone) := by
    refine List.mem_filter.mpr ⟨mem_sortedSuccessors.mpr hab, ?_⟩
    rw [hlkb]
    rfl
  have hcd : (alookup ([(a, 0)] : List (String × Nat)) a).getD 0 = 0 := by
    simp [alookup]
  rw [alookup_append_right _ hlkb, alookup_map_const, if_pos hbN, hcd]

/-- With a direct edge `a → b` (and `a ≠ b`), the modelled
`networkx.shortest_path` returns exactly the two-node path. -/
theorem shortest_path_direct {G : DiGraph} (hwf : G.WF) {a b : String}
    (ha : a ∈ G.nodes) (hab : (a, b) ∈ G.edges) (hne : b ≠ a) :
    shortest_path G a b = some [a, b] := by
  obtain ⟨hinv, _⟩ := bfsRun_inv hwf ha
  have hd1 := dist_one hwf ha hab hne
  unfold shortest_path
  rw [if_pos ha, hd1]
  have hmp : minParent (bfsRun G a) b = some a := by
    obtain ⟨q, hq⟩ := parRel_exists hwf ha (by rw [hd1]; rfl) hne
    obtain ⟨l, hl, hminl⟩ := Option.bind_eq_some.mp hq
    have hqa : q = a := by
      have hql := (listMin_spec hminl).1
      obtain ⟨hs, _, du, dn, hdu, hdn, hsum⟩ := (bfsRun_par_spec hwf ha hl q).mp hql
      rw [hd1] at hdn
      have : 1 = dn := (Option.some.injEq _ _).mp hdn
      have hdu0 : du = 0 := by omega
      exact (hinv.dist_zero q du hdu).mp hdu0
    rw [hqa] at hq
    exact hq
  have heq : pathTo (bfsRun G a) 1 b = pathTo (bfsRun G a) 0 a ++ [b] := by
    show (match minParent (bfsRun G a) b with
      | some p => pathTo (bfsRun G a) 0 p ++ [b]
      | none => [b]) = _
    rw [hmp]
  show some (pathTo (bfsRun G a) 1 b) = some [a, b]
  rw [heq]
  rfl

theorem foldl_addEdge_edges_mono :
    ∀ (l : List (String × String)) (H : DiGraph) {e : String × String},
      e ∈ H.edges →
      e ∈ (l.foldl (fun Hacc pr => addEdge Hacc pr.2 pr.1) H).edges := by
  intro l
  induction l with
  | nil => intro H e h; exact h
  | cons pr rest ih =>
    intro H e h
    simp only [List.foldl_cons]
    exact ih _ (List.mem_insert_of_mem h)

theorem foldl_addEdge_edges_sound {G : DiGraph} :
    ∀ (l : List (String × String)) (H : DiGraph),
      (∀ pr ∈ l, (pr.1, pr.2) ∈ G.edges) →
      ∀ e ∈ (l.foldl (fun Hacc pr => addEdge Hacc pr.2 pr.1) H).edges,
        e ∈ H.edges ∨ (e.2, e.1) ∈ G.edges := by
  intro l
  induction l with
  | nil => intro H _ e he; exact Or.inl he
  | cons pr rest ih =>
    intro H hval e he
    simp only [List.foldl_cons] at he
    rcases ih _ (fun x hx => hval x (List.mem_cons_of_mem _ hx)) e he with h | h
    · rcases List.mem_insert_iff.mp h with h2 | h2
      · right
        rw [h2]
        exact hval pr (List.mem_cons_self _ _)
      · exact Or.inl h2
    · exact Or.inr h

theorem foldl_addNode_nodes_mono :
    ∀ (p : List String) (H : DiGraph) {x : String},
      x ∈ H.nodes → x ∈ (p.foldl addNode H).nodes := by
  intro p
  induction p with
  | nil => intro H x h; exact h
  | cons y rest ih =>
    intro H x h
    simp only [List.foldl_cons]
    exact ih _ (List.mem_insert_of_mem h)

theorem foldl_addEdge_nodes_mono :
    ∀ (l : List (String × String)) (H : DiGraph) {x : String},
      x ∈ H.nodes →
      x ∈ (l.foldl (fun Hacc pr => addEdge Hacc pr.2 pr.1) H).nodes := by
  intro l
  induction l with
  | nil => intro H x h; exact h
  | cons pr rest ih =>
    intro H x h
    simp only [List.foldl_cons]
    exact ih _ (List.mem_insert_of_mem (List.mem_insert_of_mem h))

theorem addInvertedPath_nodes_mono {H : DiGraph} {p : List String} {x : String}
    (h : x ∈ H.nodes) : x ∈ (addInvertedPath H p).nodes := by
  unfold addInvertedPath
  exact foldl_addEdge_nodes_mono _ _ (foldl_addNode_nodes_mono _ _ h)

theorem foldl_addNode_edges (p : List String) (H : DiGraph) :
    (p.foldl addNode H).edges = H.edges := by
  induction p generalizing H with
  | nil => rfl
  | cons y rest ih => exact ih _

theorem addInvertedPath_edges_mono {H : DiGraph} {p : List String}
    {e : String × String} (h : e ∈ H.edges) : e ∈ (addInvertedPath H p).edges := by
  unfold addInvertedPath
  have h1 : e ∈ (p.foldl addNode H).edges := by
    rw [foldl_addNode_edges]
    exact h
  exact foldl_addEdge_edges_mono _ _ h1

theorem addInvertedPath_edges_sound {G H : DiGraph} {p : List String}
    (hch : List.Chain' (edgeRel G) p) {e : String × String}
    (he : e ∈ (addInvertedPath H p).edges) : e ∈ H.edges ∨ (e.2, e.1) ∈ G.edges := by
  unfold addInvertedPath at he
  have h1 := foldl_addEdge_edges_sound (G := G) (p.zip p.tail) (p.foldl addNode H)
    (fun pr hpr => chain'_zip p hch pr hpr) e he
  rw [foldl_addNode_edges] at h1
  exact h1

theorem pairStep_edges_mono {G : DiGraph} {u v : String} {H : DiGraph}
    {e : String × String} (h : e ∈ H.edges) : e ∈ (pairStep G u v H).edges := by
  unfold pairStep
  by_cases huv : u = v
  · rw [if_pos huv]
    exact h
  · rw [if_neg huv]
    cases hsp : shortest_path G u v with
    | none => exact h
    | some p => exact addInvertedPath_edges_mono h

theorem pairStep_edges_sound {G : DiGraph} (hwf : G.WF) {u v : String} {H : DiGraph}
    {e : String × String} (he : e ∈ (pairStep G u v H).edges) :
    e ∈ H.edges ∨ (e.2, e.1) ∈ G.edges := by
  unfold pairStep at he
  by_cases huv : u = v
  · rw [if_pos huv] at he
    exact Or.inl he
  · rw [if_neg huv] at he
    cases hsp : shortest_path G u v with
    | none =>
      rw [hsp] at he
      exact Or.inl he
    | some p =>
      rw [hsp] at he
      exact addInvertedPath_edges_sound (shortest_path_chain hwf hsp) he

theorem pairStep_nodes_mono {G : DiGraph} {u v : String} {H : DiGraph}
    {x : String} (h : x ∈ H.nodes) : x ∈ (pairStep G u v H).nodes := by
  unfold pairStep
  by_cases huv : u = v
  · rw [if_pos huv]
    exact h
  · rw [if_neg huv]
    cases hsp : shortest_path G u v with
    | none => exact h
    | some p => exact addInvertedPath_nodes_mono h

/-- Edge list of a subgraph computation result (empty on error). -/
def subgraphEdges (r : Except String DiGraph) : List (String × String) :=
  match r with
  | .error _ => []
  | .ok H => H.edges

/-- Error message of a subgraph computation result. -/
def subgraphError (r : Except String DiGraph) : Option String :=
  match r with
  | .error s => some s
  | .ok _ => none

/-- C4 (amended): with a direct edge `a → b`, distinct endpoints, and no
reverse edge `b → a` in `G`, the minimal subgraph for `[a, b]` contains
both nodes and the inverted edge `(b, a)` but not `(a, b)`; in general
every edge it emits is the inversion of an edge of `G` traversed on a
chosen shortest path. -/
theorem claim_C4 (G : DiGraph) (hwf : G.WF) (a b : String)
    (hab : (a, b) ∈ G.edges) (hne : a ≠ b) (hba : (b, a) ∉ G.edges) :
    ∃ H, minimal_subgraph_for_artifacts G [a, b] = .ok H ∧
      a ∈ H.nodes ∧ b ∈ H.nodes ∧ (b, a) ∈ H.edges ∧ (a, b) ∉ H.edges ∧
      ∀ x y, (x, y) ∈ H.edges → (y, x) ∈ G.edges := by
  have ha : a ∈ G.nodes := (hwf.2.2 _ hab).1
  have hb : b ∈ G.nodes := (hwf.2.2 _ hab).2
  have hmissing : (([a, b] : List String).filter (fun x => !(G.nodes.contains x))) = [] := by
    rw [List.eq_nil_iff_forall_not_mem]
    intro x hx
    obtain ⟨hx1, hx2⟩ := List.mem_filter.mp hx
    have hxn : x ∈ G.nodes := by
      rcases List.mem_cons.mp hx1 with h | h
      · rw [h]; exact ha
      · have : x = b := by simpa using h
        rw [this]; exact hb
    have hc : G.nodes.contains x = true := List.elem_iff.mpr hxn
    rw [hc] at hx2
    exact Bool.noConfusion hx2
  have harts : dedupFirst [a, b] = [a, b] := by
    unfold dedupFirst dedupFirstAux
    rw [if_neg (List.not_mem_nil a)]
    unfold dedupFirstAux
    rw [if_neg (by
      intro hmem
      exact hne ((List.mem_singleton.mp hmem).symm))]
    rfl
  have hmain : minimal_subgraph_for_artifacts G [a, b] =
      .ok (pairStep G b b (pairStep G b a (pairStep G a b
        (pairStep G a a ⟨[a, b], []⟩)))) := by
    unfold minimal_subgraph_for_artifacts
    dsimp only
    rw [hmissing, harts]
    rfl
  have hps_aa : pairStep G a a (⟨[a, b], []⟩ : DiGraph) = ⟨[a, b], []⟩ := by
    unfold pairStep
    rw [if_pos rfl]
  have hfold_nodes : (([a, b] : List String).foldl addNode
      (⟨[a, b], ([] : List (String × String))⟩ : DiGraph)) = ⟨[a, b], []⟩ := by
    simp only [List.foldl_cons, List.foldl_nil]
    unfold addNode
    dsimp only
    rw [List.insert_of_mem (by simp), List.insert_of_mem (by simp)]
  have hH1 : addInvertedPath (⟨[a, b], []⟩ : DiGraph) [a, b] = ⟨[a, b], [(b, a)]⟩ := by
    unfold addInvertedPath
    dsimp only
    rw [hfold_nodes]
    show ([((a, b) : String × String)].foldl
      (fun Hacc e => addEdge Hacc e.2 e.1) ⟨[a, b], []⟩) = _
    simp only [List.foldl_cons, List.foldl_nil]
    unfold addEdge
    dsimp only
    rw [List.insert_of_mem (by simp), List.insert_of_mem (by simp)]
    rfl
  have hps_ab : pairStep G a b (⟨[a, b], []⟩ : DiGraph) = ⟨[a, b], [(b, a)]⟩ := by
    unfold pairStep
    rw [if_neg hne, shortest_path_direct hwf ha hab (Ne.symm hne)]
    exact hH1
  have hps_bb : ∀ H, pairStep G b b H = H := by
    intro H
    unfold pairStep
    rw [if_pos rfl]
  rw [hmain, hps_aa, hps_ab, hps_bb]
  refine ⟨pairStep G b a ⟨[a, b], [(b, a)]⟩, rfl, ?_, ?_, ?_, ?_, ?_⟩
  · exact pairStep_nodes_mono (by simp)
  · exact pairStep_nodes_mono (by simp)
  · exact pairStep_edges_mono (by simp)
  · intro hmem
    rcases pairStep_edges_sound hwf hmem with h | h
    · have : (a, b) = (b, a) := by simpa using h
      exact hne (congrArg Prod.fst this)
    · exact hba (by simpa using h)
  · intro x y hxy
    rcases pairStep_edges_sound hwf hxy with h | h
    · have : (x, y) = (b, a) := by simpa using h
      have hx : x = b := congrArg Prod.fst this
      have hy : y = a := congrArg Prod.snd this
      rw [hx, hy]
      exact hab
    · exact h

theorem claim_C4_witness :
    DiGraph.WF diamondGraph ∧ ("m", "a") ∈ diamondGraph.edges ∧
    ("m") ≠ ("a") ∧ ("a", "m") ∉ diamondGraph.edges ∧
    (∃ H, minimal_subgraph_for_artifacts diamondGraph ["m", "a"] = .ok H ∧
      ("m") ∈ H.nodes ∧ ("a") ∈ H.nodes ∧ ("a", "m") ∈ H.edges ∧
      ("m", "a") ∉ H.edges ∧
      ∀ x y, (x, y) ∈ H.edges → (y, x) ∈ diamondGraph.edges) :=
  ⟨by decide, by decide, by decide, by decide,
    claim_C4 diamondGraph (by decide) ("m") ("a") (by decide) (by decide) (by decide)⟩

/-- C4 counterexample: in the two-node cycle `A ↔ B` the pair `(B, A)`
also has a shortest path, whose inversion adds the original-direction
edge `(A, B)` to the output, refuting the claim that the
original-direction edge is never present. -/
theorem claim_C4_counterexample :
    ("A", "B") ∈ twoCycleGraph.edges ∧
    ("A", "B") ∈ subgraphEdges (minimal_subgraph_for_artifacts twoCycleGraph
      ["A", "B"]) := by
  decide

/-- C5 (amended): when some requested identifiers are missing from the
graph, `minimal_subgraph_for_artifacts` fails before building anything,
with a message listing the missing identifiers in request order (not
sorted), joined by a comma and space. -/
theorem claim_C5 (G : DiGraph) (artifacts : List String)
    (h : artifacts.filter (fun x => !(G.nodes.contains x)) ≠ []) :
    minimal_subgraph_for_artifacts G artifacts =
      .error ("Artifacts not found in graph: " ++ String.intercalate (", ")
        (artifacts.filter (fun x => !(G.nodes.contains x)))) := by
  unfold minimal_subgraph_for_artifacts
  dsimp only
  have hfalse : (artifacts.filter (fun x => !(G.nodes.contains x))).isEmpty = false := by
    cases he : artifacts.filter (fun x => !(G.nodes.contains x)) with
    | nil => exact absurd he h
    | cons x xs => rfl
  have hc : ¬ ((artifacts.filter (fun x => !(G.nodes.contains x))).isEmpty = true) := by
    rw [hfalse]
    simp
  rw [if_neg hc]

theorem claim_C5_witness :
    (["b", "a"].filter (fun x => !((["c"] : List String).contains x)) ≠ []) ∧
    minimal_subgraph_for_artifacts ⟨["c"], []⟩ ["b", "a"] =
      .error ("Artifacts not found in graph: " ++ String.intercalate (", ")
        (["b", "a"].filter (fun x => !((["c"] : List String).contains x)))) :=
  ⟨by decide, claim_C5 ⟨["c"], []⟩ ["b", "a"] (by decide)⟩

/-- C5 counterexample: requesting the missing identifiers `b` then `a`
produces the message in request order `"b, a"`, not in sorted order
`"a, b"`, refuting the sorted-message claim. -/
theorem claim_C5_counterexample :
    subgraphError (minimal_subgraph_for_artifacts ⟨["c"], []⟩ ["b", "a"]) =
      some ("Artifacts not found in graph: b, a") ∧
    ("Artifacts not found in graph: b, a") ≠ ("Artifacts not found in graph: a, b") := by
  decide

/-- One `<dependency>` element of a POM: optional `groupId` and
`artifactId` texts (`none` models an absent element or one with no
text; the empty string models empty text, which Python treats as
falsy too). -/
structure DepElem where
  groupId : Option String
  artifactId : Option String
deriving DecidableEq, Repr

/-- A parsed POM: the root project coordinates and its dependency
elements. -/
structure Pom where
  groupId : Option String
  artifactId : Option String
  deps : List DepElem
deriving DecidableEq, Repr

/-- Python truthiness of an optional element text: `elem is not None
and elem.text` — absent or empty text is falsy. -/
def isTruthy (o : Option String) : Bool :=
  match o with
  | none => false
  | some s => !(s.isEmpty)

/-- Python truthiness of an optional group set argument: `None` and
the empty set are falsy. -/
def truthySet (o : Option (List String)) : Bool :=
  match o with
  | none => false
  | some l => !(l.isEmpty)

/-- The group filter condition of `extract_dependencies`:
`(included_groups and group_id not in included_groups) or
(excluded_groups and group_id in excluded_groups)`. -/
def groupFilteredOut (included excluded : Option (List String)) (g : String) : Bool :=
  (truthySet included && !((included.getD []).contains g)) ||
  (truthySet excluded && (excluded.getD []).contains g)

/-- One iteration of the dependency loop of `extract_dependencies`:
skip deps without a truthy artifactId; deps with a truthy groupId are
group-filtered and composed as `group:artifact` when requested; deps
without a truthy groupId are added under the bare artifactId. -/
def depStep (igi : Bool) (inc exc : Option (List String))
    (acc : List String) (dep : DepElem) : List String :=
  if isTruthy dep.artifactId then
    if isTruthy dep.groupId then
      if groupFilteredOut inc exc (dep.groupId.getD "") then acc
      else acc.insert (if igi then (dep.groupId.getD "") ++ (":") ++ (dep.artifactId.getD "")
        else dep.artifactId.getD "")
    else acc.insert (dep.artifactId.getD "")
  else acc

/-- The identifier under which `extract_dependencies` records a kept
dependency element. -/
def depId (igi : Bool) (d : DepElem) : String :=
  if isTruthy d.groupId then
    (if igi then (d.groupId.getD "") ++ (":") ++ (d.artifactId.getD "")
      else d.artifactId.getD "")
  else d.artifactId.getD ""

/-- Whether a dependency element survives the loop of
`extract_dependencies`. -/
def depKept (inc exc : Option (List String)) (d : DepElem) : Bool :=
  isTruthy d.artifactId &&
    (!(isTruthy d.groupId) || !(groupFilteredOut inc exc (d.groupId.getD "")))

/-- Model of `extract_dependencies` (deps_graph.py lines 14-63): error
on a missing project artifactId; drop the whole project when its own
truthy groupId is filtered out; otherwise collect the dependency
identifiers. -/
def extract_dependencies (pom : Pom) (include_group_id : Bool)
    (included_groups excluded_groups : Option (List String)) :
    Except String (Option String × List String) :=
  if isTruthy pom.artifactId then
    let artifact_name :=
      if include_group_id && isTruthy pom.groupId then
        (pom.groupId.getD "") ++ (":") ++ (pom.artifactId.getD "")
      else pom.artifactId.getD ""
    if isTruthy pom.groupId &&
        groupFilteredOut included_groups excluded_groups (pom.groupId.getD "") then
      .ok (none, [])
    else
      .ok (some artifact_name,
        pom.deps.foldl (depStep include_group_id included_groups excluded_groups) [])
  else .error ("Error: No <artifactId> found")

/-- The per-POM step of `build_dependency_graph`: a filtered-out
project (artifact is None) adds nothing; otherwise add the project
node and an edge to each collected dependency. -/
def addPomResult (G0 : DiGraph) (res : Option String × List String) : DiGraph :=
  match res.1 with
  | none => G0
  | some artifact => res.2.foldl (fun G1 d => addEdge G1 artifact d) (addNode G0 artifact)

/-- One iteration of the POM loop in `build_dependency_graph`:
propagate a previous error, propagate an extraction error, otherwise
merge the extracted project into the graph. -/
def pomStep (igi : Bool) (inc exc : Option (List String))
    (acc : Except String DiGraph) (pom : Pom) : Except String DiGraph :=
  match acc with
  | .error e => .error e
  | .ok G0 =>
    match extract_dependencies pom igi inc exc with
    | .error e => .error e
    | .ok res => .ok (addPomResult G0 res)

/-- Model of `build_dependency_graph` (deps_graph.py lines 66-91) over
an already-parsed list of POMs. -/
def build_dependency_graph (poms : List Pom) (igi : Bool)
    (inc exc : Option (List String)) : Except String DiGraph :=
  poms.foldl (pomStep igi inc exc) (.ok ⟨[], []⟩)

theorem mem_depStep (igi : Bool) (inc exc : Option (List String))
    (acc : List String) (d : DepElem) (s : String) :
    s ∈ depStep igi inc exc acc d ↔
      s ∈ acc ∨ (depKept inc exc d = true ∧ s = depId igi d) := by
  unfold depStep depKept depId
  cases hart : isTruthy d.artifactId with
  | false => simp [hart]
  | true =>
    cases hgrp : isTruthy d.groupId with
    | false => simp [hart, hgrp, List.mem_insert_iff, or_comm]
    | true =>
      cases hfo : groupFilteredOut inc exc (d.groupId.getD "") with
      | true => simp [hart, hgrp, hfo]
      | false => simp [hart, hgrp, hfo, List.mem_insert_iff, or_comm]

theorem mem_depStep_foldl (igi : Bool) (inc exc : Option (List String)) :
    ∀ (deps : List DepElem) (acc : List String) (s : String),
      (s ∈ deps.foldl (depStep igi inc exc) acc ↔
        s ∈ acc ∨ ∃ d, d ∈ deps ∧ depKept inc exc d = true ∧ s = depId igi d) := by
  intro deps
  induction deps with
  | nil => intro acc s; simp
  | cons d rest ih =>
    intro acc s
    simp only [List.foldl_cons]
    rw [ih, mem_depStep]
    constructor
    · rintro ((h | ⟨hk, hs⟩) | ⟨d2, hd2, hk, hs⟩)
      · exact Or.inl h
      · exact Or.inr ⟨d, List.mem_cons_self _ _, hk, hs⟩
      · exact Or.inr ⟨d2, List.mem_cons_of_mem _ hd2, hk, hs⟩
    · rintro (h | ⟨d2, hd2, hk, hs⟩)
      · exact Or.inl (Or.inl h)
      · rcases List.mem_cons.mp hd2 with he | he
        · subst he
          exact Or.inl (Or.inr ⟨hk, hs⟩)
        · exact Or.inr ⟨d2, he, hk, hs⟩

theorem extract_excluded_project (pom : Pom) (igi : Bool)
    (inc exc : Option (List String))
    (hart : isTruthy pom.artifactId = true)
    (hgrp : isTruthy pom.groupId = true)
    (hexc : truthySet exc = true)
    (hmem : (exc.getD []).contains (pom.groupId.getD "") = true) :
    extract_dependencies pom igi inc exc = .ok (none, []) := by
  unfold extract_dependencies
  rw [if_pos hart]
  dsimp only
  have hfo : groupFilteredOut inc exc (pom.groupId.getD "") = true := by
    unfold groupFilteredOut
    rw [hexc, hmem]
    simp
  rw [if_pos (show (isTruthy pom.groupId &&
    groupFilteredOut inc exc (pom.groupId.getD "")) = true by rw [hgrp, hfo]; rfl)]

theorem depStep_skip (igi : Bool) (inc exc : Option (List String))
    (acc : List String) (d : DepElem)
    (hk : (isTruthy d.groupId && groupFilteredOut inc exc (d.groupId.getD "")) = true) :
    depStep igi inc exc acc d = acc := by
  obtain ⟨h1, h2⟩ := Bool.and_eq_true_iff.mp hk
  unfold depStep
  by_cases hart : isTruthy d.artifactId = true
  · rw [if_pos hart, if_pos h1, if_pos h2]
  · rw [if_neg hart]

theorem filter_foldl_depStep (igi : Bool) (inc exc : Option (List String)) :
    ∀ (l : List DepElem) (acc : List String),
      (l.filter (fun d => !(isTruthy d.groupId &&
          groupFilteredOut inc exc (d.groupId.getD "")))).foldl
        (depStep igi inc exc) acc =
      l.foldl (depStep igi inc exc) acc := by
  intro l
  induction l with
  | nil => intro acc; rfl
  | cons d rest ih =>
    intro acc
    by_cases hk : (isTruthy d.groupId &&
        groupFilteredOut inc exc (d.groupId.getD "")) = true
    · have hp : (!(isTruthy d.groupId &&
          groupFilteredOut inc exc (d.groupId.getD ""))) = false := by
        rw [hk]
        rfl
      have hfc : List.filter (fun d => !(isTruthy d.groupId &&
            groupFilteredOut inc exc (d.groupId.getD ""))) (d :: rest) =
          List.filter (fun d => !(isTruthy d.groupId &&
            groupFilteredOut inc exc (d.groupId.getD ""))) rest :=
        List.filter_cons_of_neg (by rw [hp]; exact Bool.false_ne_true)
      rw [hfc, List.foldl_cons, depStep_skip igi inc exc acc d hk, ih]
    · have hp : (!(isTruthy d.groupId &&
          groupFilteredOut inc exc (d.groupId.getD ""))) = true := by
        cases hx : (isTruthy d.groupId &&
            groupFilteredOut inc exc (d.groupId.getD "")) with
        | true => exact absurd hx hk
        | false => rfl
      have hfc : List.filter (fun d => !(isTruthy d.groupId &&
            groupFilteredOut inc exc (d.groupId.getD ""))) (d :: rest) =
          d :: List.filter (fun d => !(isTruthy d.groupId &&
            groupFilteredOut inc exc (d.groupId.getD ""))) rest :=
        List.filter_cons_of_pos hp
      rw [hfc, List.foldl_cons, List.foldl_cons, ih]

theorem build_graph_skips_excluded (igi : Bool) (inc exc : Option (List String))
    (pom : Pom)
    (hart : isTruthy pom.artifactId = true)
    (hgrp : isTruthy pom.groupId = true)
    (hexc : truthySet exc = true)
    (hmem : (exc.getD []).contains (pom.groupId.getD "") = true) :
    ∀ (poms1 poms2 : List Pom),
      build_dependency_graph (poms1 ++ pom :: poms2) igi inc exc =
        build_dependency_graph (poms1 ++ poms2) igi inc exc := by
  intro poms1 poms2
  have hstep : ∀ acc, pomStep igi inc exc acc pom = acc := by
    intro acc
    cases acc with
    | error e => rfl
    | ok G0 =>
      unfold pomStep
      rw [extract_excluded_project pom igi inc exc hart hgrp hexc hmem]
      rfl
  unfold build_dependency_graph
  rw [List.foldl_append, List.foldl_append, List.foldl_cons, hstep]

/-- C8: exclusion beats inclusion in `extract_dependencies`. A project
whose truthy groupId lies in a truthy excluded set (whatever the
included set says) yields `(None, empty set)` and contributes nothing
to the dependency graph, and dropping every dependency element whose
truthy groupId is group-filtered out (excluded, or failing a given
include set) leaves the result unchanged — such deps are omitted. -/
theorem claim_C8 :
    (∀ (pom : Pom) (igi : Bool) (inc exc : Option (List String)),
      isTruthy pom.artifactId = true →
      isTruthy pom.groupId = true →
      truthySet exc = true →
      (exc.getD []).contains (pom.groupId.getD "") = true →
      extract_dependencies pom igi inc exc = .ok (none, [])) ∧
    (∀ (pom : Pom) (igi : Bool) (inc exc : Option (List String)),
      isTruthy pom.artifactId = true →
      isTruthy pom.groupId = true →
      truthySet exc = true →
      (exc.getD []).contains (pom.groupId.getD "") = true →
      ∀ (poms1 poms2 : List Pom),
        build_dependency_graph (poms1 ++ pom :: poms2) igi inc exc =
          build_dependency_graph (poms1 ++ poms2) igi inc exc) ∧
    (∀ (pom : Pom) (igi : Bool) (inc exc : Option (List String)),
      extract_dependencies
        { pom with deps := pom.deps.filter (fun d => !(isTruthy d.groupId &&
            groupFilteredOut inc exc (d.groupId.getD ""))) } igi inc exc =
      extract_dependencies pom igi inc exc) := by
  refine ⟨fun pom igi inc exc hart hgrp hexc hmem =>
    extract_excluded_project pom igi inc exc hart hgrp hexc hmem,
    fun pom igi inc exc hart hgrp hexc hmem =>
      build_graph_skips_excluded igi inc exc pom hart hgrp hexc hmem,
    fun pom igi inc exc => ?_⟩
  unfold extract_dependencies
  dsimp only
  rw [filter_foldl_depStep]

theorem claim_C8_witness :
    (isTruthy (Pom.artifactId ⟨some "g", some "p", [⟨some "g", some "x"⟩]⟩) = true ∧
      isTruthy (Pom.groupId ⟨some "g", some "p", [⟨some "g", some "x"⟩]⟩) = true ∧
      truthySet (some ["g"]) = true ∧
      ((some ["g"] : Option (List String)).getD []).contains
        ((Pom.groupId ⟨some "g", some "p", [⟨some "g", some "x"⟩]⟩).getD "") = true ∧
      extract_dependencies ⟨some "g", some "p", [⟨some "g", some "x"⟩]⟩
        true (some ["g"]) (some ["g"]) = .ok (none, [])) ∧
    build_dependency_graph ([] ++ (⟨some "g", some "p", [⟨some "g", some "x"⟩]⟩ : Pom) ::
        [⟨some "h", some "q", []⟩]) true (some ["g"]) (some ["g"]) =
      build_dependency_graph ([] ++ [⟨some "h", some "q", []⟩]) true (some ["g"]) (some ["g"]) ∧
    extract_dependencies
      { (⟨some "h", some "q", [⟨some "g", some "x"⟩, ⟨some "h", some "y"⟩]⟩ : Pom) with
        deps := [(⟨some "g", some "x"⟩ : DepElem), ⟨some "h", some "y"⟩].filter
          (fun d => !(isTruthy d.groupId &&
            groupFilteredOut none (some ["g"]) (d.groupId.getD ""))) }
      true none (some ["g"]) =
    extract_dependencies ⟨some "h", some "q", [⟨some "g", some "x"⟩, ⟨some "h", some "y"⟩]⟩
      true none (some ["g"]) :=
  ⟨⟨by decide, by decide, by decide, by decide,
    claim_C8.1 ⟨some "g", some "p", [⟨some "g", some "x"⟩]⟩ true (some ["g"]) (some ["g"])
      (by decide) (by decide) (by decide) (by decide)⟩,
   claim_C8.2.1 ⟨some "g", some "p", [⟨some "g", some "x"⟩]⟩ true (some ["g"]) (some ["g"])
      (by decide) (by decide) (by decide) (by decide) [] [⟨some "h", some "q", []⟩],
   claim_C8.2.2 ⟨some "h", some "q", [⟨some "g", some "x"⟩, ⟨some "h", some "y"⟩]⟩
      true none (some ["g"])⟩

/-- C10: a dependency element with a truthy artifactId but no truthy
groupId bypasses group filtering entirely: whatever the include set
and the include_group_id flag, its bare artifactId is in the returned
dependency set (for any project that itself passes the filter). -/
theorem claim_C10 (pom : Pom) (igi : Bool) (inc exc : Option (List String))
    (d : DepElem) (hd : d ∈ pom.deps)
    (hart : isTruthy d.artifactId = true)
    (hgrp : isTruthy d.groupId = false)
    (hprojart : isTruthy pom.artifactId = true)
    (hproj : (isTruthy pom.groupId &&
      groupFilteredOut inc exc (pom.groupId.getD "")) = false) :
    ∃ name ids, extract_dependencies pom igi inc exc = .ok (some name, ids) ∧
      (d.artifactId.getD "") ∈ ids := by
  unfold extract_dependencies
  rw [if_pos hprojart]
  dsimp only
  rw [if_neg (by rw [hproj]; exact Bool.false_ne_true)]
  refine ⟨_, _, rfl, ?_⟩
  rw [mem_depStep_foldl]
  refine Or.inr ⟨d, hd, ?_, ?_⟩
  · unfold depKept
    rw [hart, hgrp]
    rfl
  · unfold depId
    rw [if_neg (by rw [hgrp]; exact Bool.false_ne_true)]

theorem claim_C10_witness :
    (⟨none, some "x"⟩ : DepElem) ∈
      (Pom.deps ⟨none, some "p", [⟨none, some "x"⟩]⟩) ∧
    isTruthy (DepElem.artifactId ⟨none, some "x"⟩) = true ∧
    isTruthy (DepElem.groupId ⟨none, some "x"⟩) = false ∧
    isTruthy (Pom.artifactId ⟨none, some "p", [⟨none, some "x"⟩]⟩) = true ∧
    (isTruthy (Pom.groupId ⟨none, some "p", [⟨none, some "x"⟩]⟩) &&
      groupFilteredOut (some ["other"]) none
        ((Pom.groupId ⟨none, some "p", [⟨none, some "x"⟩]⟩).getD "")) = false ∧
    ∃ name ids,
      extract_dependencies ⟨none, some "p", [⟨none, some "x"⟩]⟩
        true (some ["other"]) none = .ok (some name, ids) ∧
      ((DepElem.artifactId ⟨none, some "x"⟩).getD "") ∈ ids :=
  ⟨by decide, by decide, by decide, by decide, by decide,
    claim_C10 ⟨none, some "p", [⟨none, some "x"⟩]⟩ true (some ["other"]) none
      ⟨none, some "x"⟩ (by decide) (by decide) (by decide) (by decide) (by decide)⟩

end ManipuPom
